import Mathlib

/-!
Verification development for the Verilog-emission preparation pass
(`lib/Conversion/ExportVerilog/PrepareForEmission.cpp`).

The pass legalizes a hardware IR before textual emission.  The development
below gives a shallow embedding of the rewrites the pass performs:

* `lowerFullyAssociativeOp` — balancing of variadic commutative operations
  into binary expression trees (source lines 256-291);
* `rewriteAddWithNegativeConstant` — `a + (-cst) ==> a - cst`
  (source lines 293-308);
* `reuseExistingInOut` — reuse of an existing continuous assignment as a
  spill wire (source lines 538-584);
* `rewriteSideEffectingExpr` — forcing side-effecting expressions into a
  single blocking assignment to a register (source lines 349-378);
* `hoistNonSideEffectExpr` — hoisting of non-side-effecting expressions out
  of procedural regions (source lines 384-428);
* `shouldSpillWireBasedOnState` / `dispatchHeuristic` — the prettification
  pass's worth-spilling predicate (source lines 586-636);
* `legalizeHWModule` — the per-block legalization driver (source
  lines 667-971), modelled over abstract per-operation states.

Machine integers (`APInt` of width `w`) are modelled as natural numbers
taken modulo `2 ^ w`.  Values of the IR are modelled, under a concrete
input assignment, by the natural numbers they evaluate to.
-/

/-- The variadic commutative `comb` operations that reach the balancing
rewrite (`IsCommutative`, memory-effect free, single result): `comb.add`,
`comb.mul`, `comb.and`, `comb.or`, `comb.xor`. -/
inductive CombKind where
  | add
  | mul
  | andK
  | orK
  | xorK
deriving DecidableEq, Repr

/-- Binary semantics of one `comb` operation at bit width `w`: arithmetic
operations truncate modulo `2 ^ w`, bitwise operations act bitwise. -/
def binDenote (k : CombKind) (w : Nat) (a b : Nat) : Nat :=
  match k with
  | .add => (a + b) % 2 ^ w
  | .mul => (a * b) % 2 ^ w
  | .andK => a &&& b
  | .orK => a ||| b
  | .xorK => a ^^^ b

/-- Right-nested combination of a nonempty operand list with a bitwise
binary operation; this is the reference semantics of the variadic bitwise
`comb` operations. -/
def variadicBitwise (g : Nat → Nat → Nat) : List Nat → Nat
  | [] => 0
  | [v] => v
  | v :: rest => g v (variadicBitwise g rest)

/-- Semantics of an N-ary `comb` operation at bit width `w` applied to the
concrete operand values `vs`: sum/product modulo `2 ^ w`, or the bitwise
combination of all operands. -/
def variadicDenote (k : CombKind) (w : Nat) (vs : List Nat) : Nat :=
  match k with
  | .add => vs.sum % 2 ^ w
  | .mul => vs.prod % 2 ^ w
  | .andK => variadicBitwise (· &&& ·) vs
  | .orK => variadicBitwise (· ||| ·) vs
  | .xorK => variadicBitwise (· ^^^ ·) vs

/-- Left fold of a nonempty value list with a binary operation, seeded with
the head.  `lowerFullyAssociativeOp` produces expression trees whose value
is characterized by this fold. -/
def listEval (f : Nat → Nat → Nat) : List Nat → Nat
  | [] => 0
  | v :: rest => rest.foldl f v

/-- Attributes of an operation that the balancing rewrite inspects: the
discardable `sv.namehint` attribute and the `twoState` unit marker. -/
structure OpAttrs where
  namehint : Option String
  twoState : Bool
deriving DecidableEq, Repr

/-- One operation freshly created by the balancing rewrite
(`OperationState` populated with `addOperands(ValueRange{lhs, rhs})` in the
source).  Operand values are recorded under the concrete input
assignment. -/
structure NewOp where
  kind : CombKind
  operands : List Nat
  namehint : Option String
  twoState : Bool
deriving DecidableEq, Repr

/-- Model of `lowerFullyAssociativeOp` (source lines 256-291).  Operands
are the concrete values `vs` of the variadic operation's operands; the
`newOps` accumulator receives every freshly created binary operation, in
creation order (so the root of the balanced tree is last).  Returns the
value of the produced tree, the updated attributes of the original
operation (the source removes `sv.namehint` at entry), and the filled
accumulator. -/
def lowerFullyAssociativeOp (k : CombKind) (w : Nat) (attrs : OpAttrs) :
    List Nat → List NewOp → Nat × OpAttrs × List NewOp
  | vs, newOps =>
    -- save the top level name, and remove it from the op
    let name := attrs.namehint
    let attrs1 : OpAttrs := { attrs with namehint := none }
    match vs with
    | [] => (0, attrs1, newOps)  -- unreachable: the source asserts size > 0
    | [v] => (v, attrs1, newOps)
    | [lhs, rhs] =>
      (binDenote k w lhs rhs, attrs1,
        newOps ++ [{ kind := k, operands := [lhs, rhs], namehint := name,
                     twoState := attrs1.twoState }])
    | v0 :: v1 :: v2 :: rest =>
      let vs' := v0 :: v1 :: v2 :: rest
      let firstHalf := vs'.length / 2
      let r1 := lowerFullyAssociativeOp k w attrs1 (vs'.take firstHalf) newOps
      let r2 := lowerFullyAssociativeOp k w r1.2.1 (vs'.drop firstHalf) r1.2.2
      (binDenote k w r1.1 r2.1, r2.2.1,
        r2.2.2 ++ [{ kind := k, operands := [r1.1, r2.1], namehint := name,
                     twoState := r2.2.1.twoState }])
  termination_by vs _ => vs.length
  decreasing_by
    · simp only [List.length_take, List.length_cons]; omega
    · simp only [List.length_drop, List.length_cons]; omega

/-- APInt-style sign test at bit width `w`: the most significant bit of the
bit pattern `c` is set (`APInt::isNegative`). -/
def apIntIsNegative (w c : Nat) : Bool :=
  c.testBit (w - 1)

/-- Two's-complement negation of the bit pattern `c` at width `w`
(`-rhsCst.getValue()` on an `APInt`). -/
def apIntNeg (w c : Nat) : Nat :=
  (2 ^ w - c % 2 ^ w) % 2 ^ w

/-- Semantics of a two-operand `comb.add` at width `w`. -/
def addDenote (w a b : Nat) : Nat :=
  (a + b) % 2 ^ w

/-- Semantics of `comb.sub` at width `w` (two's-complement subtraction). -/
def subDenote (w a b : Nat) : Nat :=
  (a % 2 ^ w + (2 ^ w - b % 2 ^ w)) % 2 ^ w

/-- Outcome of `rewriteAddWithNegativeConstant` on an add node: the value
of the freshly created positive constant, the value of the `comb.sub`
replacing the add, and which original nodes were erased. -/
structure AddNegResult where
  negCst : Nat
  result : Nat
  addErased : Bool
  cstErased : Bool
deriving DecidableEq, Repr

/-- Model of `rewriteAddWithNegativeConstant` (source lines 293-308): `a`
is the value of the add's first operand, `c` the bit pattern of the
constant second operand, and `cstOtherUses` the number of uses of the
constant node other than the add itself.  The add is always erased; the
constant is erased exactly when it has no use left after the add's erasure
(`rhsCst.use_empty()`). -/
def rewriteAddWithNegativeConstant (w a c cstOtherUses : Nat) : AddNegResult :=
  let negCst := apIntNeg w c
  { negCst := negCst
    result := subDenote w a negCst
    addErased := true
    cstErased := cstOtherUses == 0 }

/-- Kind of the operation a declaration-like value is defined by, as
inspected through `assign.getDest().getDefiningOp()` or
`bpassign.getDest().getDefiningOp()`. -/
inductive DeclKind where
  | reg
  | logic
  | otherDecl
deriving DecidableEq, Repr

/-- One use (operand position) of an expression's result, classified by the
owning operation, as the pass inspects it: a continuous `sv.assign` (with
whether it sits directly in the `hw.module` body and whether its source
operand is defined by an `hw.constant`), a blocking `sv.bpassign` (with the
kind of its destination's defining operation), an `hw.output`, an
`hw.instance` operand, an `hw.bitcast` (with that bitcast's own uses), or
any other operation. -/
inductive MUse where
  | assignUse (atTopLevel : Bool) (srcIsConstant : Bool)
  | bpassignUse (destKind : DeclKind)
  | outputUse
  | instanceUse
  | bitcastUse (users : List MUse)
  | otherUse

/-- Data the scanning loop of `reuseExistingInOut` remembers about the
single continuous assign it has found. -/
structure AssignData where
  atTopLevel : Bool
  srcIsConstant : Bool
deriving DecidableEq, Repr

/-- The use-scanning loop of `reuseExistingInOut` (source lines 543-563):
walks the uses in order; a second assign, or an assign that is not at the
module top level, bails out (`none`); other uses are collected. -/
def reuseScan : List MUse → Option AssignData → List MUse →
    Option (Option AssignData × List MUse)
  | [], acc, others => some (acc, others)
  | .assignUse top srcC :: rest, acc, others =>
    match acc with
    | some _ => none
    | none =>
      if top then reuseScan rest (some ⟨top, srcC⟩) others else none
  | u :: rest, acc, others => reuseScan rest acc (others ++ [u])

/-- Outcome of `reuseExistingInOut` on an expression: whether it fired, the
expression's remaining uses, and how many `sv.read_inout` and declaration
operations it created. -/
structure ReuseResult where
  fired : Bool
  uses : List MUse
  readsCreated : Nat
  declsCreated : Nat

/-- Model of `reuseExistingInOut` (source lines 538-584).  On success every
collected non-assign use is redirected to a freshly created read of the
assign's destination (one read per use), so the expression's remaining use
is the assign alone; the function creates no declaration.  (The final
`lowerAlwaysInlineOperation` call on an always-inline destination only
relocates/duplicates that destination and is outside this abstraction.) -/
def reuseExistingInOut (uses : List MUse) : ReuseResult :=
  match reuseScan uses none [] with
  | none => { fired := false, uses := uses, readsCreated := 0, declsCreated := 0 }
  | some (none, _) =>
    { fired := false, uses := uses, readsCreated := 0, declsCreated := 0 }
  | some (some a, others) =>
    if others.isEmpty then
      { fired := false, uses := uses, readsCreated := 0, declsCreated := 0 }
    else if a.srcIsConstant then
      { fired := false, uses := uses, readsCreated := 0, declsCreated := 0 }
    else
      { fired := true, uses := [.assignUse a.atTopLevel a.srcIsConstant],
        readsCreated := others.length, declsCreated := 0 }

/-- Whether a use is owned by a continuous `sv.assign`. -/
def isAssignUse : MUse → Bool
  | .assignUse _ _ => true
  | _ => false

/-- Whether a use is owned by a Connection node in the spec's sense
(continuous or procedural assignment). -/
def isConnectionUse : MUse → Bool
  | .assignUse _ _ => true
  | .bpassignUse _ => true
  | _ => false

/-- The firing condition of `reuseExistingInOut` as the code implements
it: exactly one continuous-assign use, located at module top level, whose
source is not a constant, plus at least one non-assign use. -/
def reuseFirePred (uses : List MUse) : Bool :=
  match uses.filter isAssignUse with
  | [.assignUse top srcC] =>
    top && !srcC && uses.any (fun u => !isAssignUse u)
  | _ => false

/-- The firing condition as claim C8 words it: the extra uses must be
non-Connection uses (procedural Connections excluded). -/
def reuseFirePredClaimC8 (uses : List MUse) : Bool :=
  match uses.filter isAssignUse with
  | [.assignUse top srcC] =>
    top && !srcC && uses.any (fun u => !isConnectionUse u)
  | _ => false

/-- Reference characterization of the scanning loop started with no assign
seen yet. -/
def scanNoneSpec (us : List MUse) (others : List MUse) :
    Option (Option AssignData × List MUse) :=
  match us.filter isAssignUse with
  | [] => some (none, others ++ us.filter (fun u => !isAssignUse u))
  | [.assignUse true srcC] =>
    some (some ⟨true, srcC⟩, others ++ us.filter (fun u => !isAssignUse u))
  | _ => none

/-- The configuration options the pass consults
(`LoweringOptions`). `spillLargeTermsWithNamehints` stands for
`isWireSpillingHeuristicEnabled(SpillLargeTermsWithNamehints)`. -/
structure LoweringOptions where
  disallowLocalVariables : Bool := false
  disallowExpressionInliningInPorts : Bool := false
  allowExprInEventControl : Bool := true
  maximumNumberOfTermsPerExpression : Nat := 0
  spillLargeTermsWithNamehints : Bool := false
  wireSpillingNamehintTermLimit : Nat := 0
deriving Repr

/-- The dialect of an operation as the driver classifies it: the known
dialects `comb`, `sv`, `hw`, or anything else. -/
inductive MDialect where
  | comb
  | sv
  | hw
  | unknown
deriving DecidableEq, Repr

/-- What `hoistNonSideEffectExpr` can observe about one operand of an
expression in a procedural region: a block argument (port, no defining
operation), a value defined in a graph region, or a value defined in a
procedural region — in the latter case recording whether its defining
operation sits in the same block as the expression.  (A value defined in
the same block as an expression that lives in a procedural region is
necessarily itself defined in that procedural region, so `sameBlock` only
exists on `procDef`.) -/
inductive HOperand where
  | port
  | graphDef
  | procDef (sameBlock : Bool)
deriving DecidableEq, Repr

/-- Abstract per-operation state: the facts about one operation that the
legalization driver and the prettification pass inspect, together with the
state they mutate (uses, procedural nesting depth, erasure).  Oracle
classifications that live outside this file
(`isVerilogExpression`, `isExpressionAlwaysInline`,
`isExpressionEmittedInline`) are modelled from the spec as boolean fields
of the state, since the spec specifies them only as an external
expression-classification oracle.  `depth` is the number of procedural
regions enclosing the operation (0 = graph region / module body). -/
structure POp where
  dialect : MDialect := .sv
  isInstance : Bool := false
  isLogic : Bool := false
  isAlwaysLike : Bool := false
  isVerilogExpr : Bool := false
  memEffectFree : Bool := true
  alwaysInline : Bool := false
  emittedInline : Bool := true
  isReadInOut : Bool := false
  resultIsInOut : Bool := false
  isConstant : Bool := false
  numResults : Nat := 1
  numOperands : Nat := 0
  isCommutative : Bool := false
  isAddWithNegConst : Bool := false
  isStructExplode : Bool := false
  depth : Nat := 0
  uses : List MUse := []
  operands : List HOperand := []
  size : Nat := 1
  namehint : Option String := none
  erased : Bool := false

/-- Model of `hint.getValue().startswith("_")`: whether the first
character of the name hint is the reserved underscore prefix. -/
def hasReservedUnderscore (s : String) : Bool :=
  match s.data with
  | [] => false
  | c :: _ => c == '_'

/-- Model of `EmittedExpressionStateManager::dispatchHeuristic` (source
lines 586-602): under the named-hint heuristic, spill when the hint lacks
the reserved prefix, or when it has the prefix and the estimated size
reaches the `wireSpillingNamehintTermLimit` threshold. -/
def dispatchHeuristic (opts : LoweringOptions) (op : POp) : Bool :=
  if opts.spillLargeTermsWithNamehints then
    match op.namehint with
    | some hint =>
      if !(hasReservedUnderscore hint) then true
      else if opts.wireSpillingNamehintTermLimit ≤ op.size then true
      else false
    | none => false
  else false

/-- The final size-or-heuristic step of `shouldSpillWireBasedOnState`
(source lines 630-635), reached when no early return fired. -/
def spillSizeOrHeuristic (opts : LoweringOptions) (op : POp) : Bool :=
  if opts.maximumNumberOfTermsPerExpression < op.size then true
  else dispatchHeuristic opts op

/-- Model of
`EmittedExpressionStateManager::shouldSpillWireBasedOnState` (source
lines 606-636). -/
def shouldSpillWireBasedOnState (opts : LoweringOptions) (op : POp) : Bool :=
  if op.numResults == 0 || op.resultIsInOut || op.isReadInOut
      || op.isConstant then
    false
  else
    match op.uses with
    | [u] =>
      match u with
      | .outputUse => false
      | .assignUse _ _ => false
      | .bpassignUse _ => false
      | .instanceUse => false
      | .bitcastUse bus =>
        match bus with
        | [.outputUse] => false
        | [.assignUse _ _] => false
        | [.bpassignUse _] => false
        | _ => spillSizeOrHeuristic opts op
      | .otherUse => spillSizeOrHeuristic opts op
    | _ => spillSizeOrHeuristic opts op

/-- Claim C7's "already effectively a temporary" use test, following the
claim's words: the sole use is a top-level output, a continuous or
procedural Connection, or an Instance operand — also checked through one
level of a no-op reinterpretation (bitcast) node. -/
def temporaryLikeUseClaimC7 : MUse → Bool
  | .outputUse => true
  | .assignUse _ _ => true
  | .bpassignUse _ => true
  | .instanceUse => true
  | .bitcastUse bus =>
    match bus with
    | [.outputUse] => true
    | [.assignUse _ _] => true
    | [.bpassignUse _] => true
    | [.instanceUse] => true
    | _ => false
  | .otherUse => false

/-- Claim C7's named-hint heuristic, following the claim's words: the hint
lacks the reserved prefix, or has the prefix and the cost strictly exceeds
the `wireSpillingNamehintTermLimit` threshold. -/
def namehintHeuristicClaimC7 (opts : LoweringOptions) (op : POp) : Bool :=
  if opts.spillLargeTermsWithNamehints then
    match op.namehint with
    | some hint =>
      if !(hasReservedUnderscore hint) then true
      else if opts.wireSpillingNamehintTermLimit < op.size then true
      else false
    | none => false
  else false

/-- The worth-spilling predicate exactly as claim C7 states it. -/
def shouldSpillWire_claimC7 (opts : LoweringOptions) (op : POp) : Bool :=
  if op.numResults == 0 || op.resultIsInOut || op.isReadInOut
      || op.isConstant then
    false
  else if (match op.uses with
           | [u] => temporaryLikeUseClaimC7 u
           | _ => false) then
    false
  else if opts.maximumNumberOfTermsPerExpression < op.size then true
  else namehintHeuristicClaimC7 opts op

/-- The "already effectively a temporary" use test as the code implements
it: unlike the claim, an Instance operand reached through one level of
bitcast is not skipped. -/
def temporaryLikeUseAmendedC7 : MUse → Bool
  | .outputUse => true
  | .assignUse _ _ => true
  | .bpassignUse _ => true
  | .instanceUse => true
  | .bitcastUse bus =>
    match bus with
    | [.outputUse] => true
    | [.assignUse _ _] => true
    | [.bpassignUse _] => true
    | _ => false
  | .otherUse => false

/-- The worth-spilling predicate as the code implements it, stated in the
claim's shape: the bitcast-level check does not skip Instance operands,
and the hint-prefix threshold test is at-least, not strictly-greater. -/
def shouldSpillWire_amendedC7 (opts : LoweringOptions) (op : POp) : Bool :=
  if op.numResults == 0 || op.resultIsInOut || op.isReadInOut
      || op.isConstant then
    false
  else if (match op.uses with
           | [u] => temporaryLikeUseAmendedC7 u
           | _ => false) then
    false
  else if opts.maximumNumberOfTermsPerExpression < op.size then true
  else dispatchHeuristic opts op

/-- The `llvm::any_of` scan over the operands in `hoistNonSideEffectExpr`
(source lines 399-414): `any_of` stops at the first operand whose defining
operation sits in a procedural region, and the `cantHoist` accumulator
(`cantHoist |= operandOp->getBlock() == op->getBlock()`) therefore records
only whether that first such operand is in the same block as the
expression.  Returns (found-a-blocking-operand, cantHoist). -/
def hoistBlockers : List HOperand → Bool × Bool
  | [] => (false, false)
  | .port :: rest => hoistBlockers rest
  | .graphDef :: rest => hoistBlockers rest
  | .procDef sameBlock :: _ => (true, sameBlock)

/-- Model of `hoistNonSideEffectExpr` (source lines 384-428) over the
abstract state: always-inline expressions (other than reads of storage and
inout-typed results) are never hoisted; with no blocking operand the
expression moves to the nearest enclosing non-procedural region
(depth 0) in one step; with a blocking operand in the same block it is not
moved at all; otherwise it moves out exactly one region level. -/
def hoistNonSideEffectExpr (op : POp) : Bool × POp :=
  if op.alwaysInline && !(op.isReadInOut || op.resultIsInOut) then
    (false, op)
  else
    if (hoistBlockers op.operands).1 then
      if (hoistBlockers op.operands).2 then (false, op)
      else (true, { op with depth := op.depth - 1 })
    else (true, { op with depth := 0 })

/-- Whether an operand's definition lies in a procedural region (and hence
does not already dominate the nearest enclosing non-procedural region). -/
def isProcDef : HOperand → Bool
  | .procDef _ => true
  | _ => false

/-- Whether the first operand defined in a procedural region is defined in
the same block as the expression (false when there is none). -/
def firstProcSameBlock : List HOperand → Bool
  | [] => false
  | .procDef sb :: _ => sb
  | .port :: rest => firstProcSameBlock rest
  | .graphDef :: rest => firstProcSameBlock rest

/-- Model of `rewriteSideEffectingExpr` (source lines 349-378) over the
expression's use list: if the op already has exactly one use and that use
is a blocking assign whose destination is defined by an `sv.reg` or
`sv.logic` declaration, nothing is done (returns false); otherwise a
register is declared at the nearest non-procedural region, every current
use is redirected to a read of that register, and a blocking assign of the
result into the register is inserted immediately after the expression, so
the expression's sole remaining use is the new blocking assign to the
register. -/
def rewriteSideEffectingExpr (uses : List MUse) : Bool × List MUse :=
  match uses with
  | [.bpassignUse .reg] => (false, uses)
  | [.bpassignUse .logic] => (false, uses)
  | _ => (true, [.bpassignUse .reg])

/-- Good form for a side-effecting expression in a procedural region:
exactly one use, and that use is a blocking Connection into a reg or
automatic-logic declaration. -/
def goodSideEffectForm : List MUse → Bool
  | [.bpassignUse .reg] => true
  | [.bpassignUse .logic] => true
  | _ => false

/-- The use list of an always-inline expression after
`lowerAlwaysInlineOperation` (source lines 140-181): the while-loop clones
the operation once per use until exactly one use is left on the original
operation. -/
def lowerAlwaysInlineUses : List MUse → List MUse
  | [] => []
  | [u] => [u]
  | _ :: rest => lowerAlwaysInlineUses rest

/-- Late per-operation rewrites of the driver loop (source lines 834-883):
operator-tree balancing erases the N-ary operation (replaced by the
balanced tree, see `lowerFullyAssociativeOp`), the add-with-negative-
constant and struct-explode rewrites erase the operation (replaced by the
`comb.sub` / field extractions), and in non-procedural regions the final
speculative `reuseExistingInOut` is attempted.  (The balancing guard's
no-regions/no-successors/attribute-dialect conjuncts are structural
side conditions not represented in this abstraction.) -/
def processLateRewrites (p : POp) : POp :=
  if 2 < p.numOperands && p.numResults == 1 && p.isCommutative
      && p.memEffectFree then
    { p with erased := true }
  else if p.isAddWithNegConst then
    { p with erased := true }
  else if p.isStructExplode then
    { p with erased := true }
  else if !(decide (1 ≤ p.depth)) && p.isVerilogExpr then
    { p with uses := (reuseExistingInOut p.uses).uses }
  else p

/-- The spill step of the driver loop (source lines 803-832): when the
oracle deems the expression not inlineable (`shouldSpillWire`), reuse an
existing continuous assign (graph regions only), hoist out of procedural
regions under `disallowLocalVariables` and spill to a wire once in a graph
region, or spill to an automatic-logic declaration in place.  Spilling via
`lowerUsersToTemporaryWire` redirects every use to a read of the new
declaration, removes the name hint, and leaves the expression's single use
as the new Connection (continuous `sv.assign` after a wire in a graph
region, blocking `sv.bpassign` into an `sv.logic` in a procedural
region). -/
def processSpillStep (opts : LoweringOptions) (p : POp) : POp :=
  if p.isVerilogExpr && !p.emittedInline then
    if decide (1 ≤ p.depth) then
      if opts.disallowLocalVariables then
        if (hoistNonSideEffectExpr p).1 then
          if (hoistNonSideEffectExpr p).2.depth == 0 then
            { (hoistNonSideEffectExpr p).2 with
              uses := [.assignUse false (hoistNonSideEffectExpr p).2.isConstant],
              namehint := none }
          else (hoistNonSideEffectExpr p).2
        else processLateRewrites p
      else
        processLateRewrites
          { p with
            uses := [.bpassignUse .logic],
            namehint := none }
    else
      if (reuseExistingInOut p.uses).fired then
        processLateRewrites { p with uses := (reuseExistingInOut p.uses).uses }
      else
        processLateRewrites
          { p with
            uses := [.assignUse false p.isConstant],
            namehint := none }
  else processLateRewrites p

/-- The always-inline duplication step of the driver loop (source
lines 789-801): use-less always-inline operations are erased; otherwise
the operation is duplicated per extra use, keeping exactly one use. -/
def processAlwaysInlineStep (opts : LoweringOptions) (p : POp) : POp :=
  if p.alwaysInline then
    if p.uses.isEmpty then { p with erased := true }
    else { p with uses := lowerAlwaysInlineUses p.uses }
  else processSpillStep opts p

/-- The hoist attempt of the procedural-expression step (source
lines 776-784): the expression moves (and the loop continues) or control
falls through to the remaining steps. -/
def processHoistStep (opts : LoweringOptions) (p : POp) : POp :=
  if (hoistNonSideEffectExpr p).1 then (hoistNonSideEffectExpr p).2
  else processAlwaysInlineStep opts p

/-- The procedural-expression step of the driver loop (source
lines 764-785): under `disallowLocalVariables`, a side-effecting Verilog
expression in a procedural region is anchored behind a register (and the
loop continues); an already-anchored one, and every non-side-effecting
expression, is offered to `hoistNonSideEffectExpr` (and the loop continues
when it moves); otherwise control falls through to the remaining steps. -/
def processProceduralExprStep (opts : LoweringOptions) (p : POp) : POp :=
  if opts.disallowLocalVariables && p.isVerilogExpr
      && decide (1 ≤ p.depth) then
    if !p.memEffectFree then
      if (rewriteSideEffectingExpr p.uses).1 then
        { p with uses := (rewriteSideEffectingExpr p.uses).2 }
      else processHoistStep opts p
    else processHoistStep opts p
  else processAlwaysInlineStep opts p

/-- The per-operation body of the driver loop (source lines 694-883),
after the dialect check: instance anchoring (lines 706-713) and the
event-control rewrite (lines 728-760) mutate other operations' states and
leave the fields tracked here unchanged; automatic-logic declarations are
hoisted out of procedural regions when local variables are disallowed
(lines 717-724); always-like operations stop after the event-control
rewrite (`continue`); everything else flows through the procedural-
expression, always-inline, spill, and late-rewrite steps. -/
def processEventControlStep (opts : LoweringOptions) (p : POp) : POp :=
  if !opts.allowExprInEventControl && p.isAlwaysLike then p
  else processProceduralExprStep opts p

/-- The dialect-checked per-operation rewrite, entered from the driver
loop: hoist automatic-logic declarations first, then the event-control
step and the rest of the pipeline. -/
def processOpFull (opts : LoweringOptions) (p0 : POp) : POp :=
  if p0.isLogic && decide (1 ≤ p0.depth)
      && opts.disallowLocalVariables then
    processEventControlStep opts { p0 with depth := 0 }
  else processEventControlStep opts p0

mutual
/-- An operation of the module tree: its abstract state plus its nested
regions. -/
inductive MOp where
  | mk (p : POp) (regions : MRegions)
/-- The list of regions nested in an operation (each region owns one
block). -/
inductive MRegions where
  | rnil
  | rcons (head : MBlock) (tail : MRegions)
/-- An ordered block of operations. -/
inductive MBlock where
  | bnil
  | bcons (head : MOp) (tail : MBlock)
end

/-- The second loop of `legalizeHWModule` (source lines 690-883): walk the
operations of the block in order; an operation of a dialect other than
comb/sv/hw raises an error and aborts with failure (lines 694-699);
every other operation is rewritten by the per-operation pipeline. -/
def phase2 (opts : LoweringOptions) : MBlock → Option MBlock
  | .bnil => some .bnil
  | .bcons (.mk p rs) rest =>
    if p.dialect = .unknown then none
    else
      match phase2 opts rest with
      | some rest2 => some (.bcons (.mk (processOpFull opts p) rs) rest2)
      | none => none

mutual
/-- The first loop of `legalizeHWModule` (source lines 672-679): legalize
every nested region of every operation of the block, propagating
failure. -/
def legalizePhase1 (opts : LoweringOptions) : MBlock → Option MBlock
  | .bnil => some .bnil
  | .bcons (.mk p rs) rest =>
    match legalizeRegions opts rs, legalizePhase1 opts rest with
    | some rs2, some rest2 => some (.bcons (.mk p rs2) rest2)
    | _, _ => none
/-- Legalize each nested region (recursive `legalizeHWModule` on the
region's block). -/
def legalizeRegions (opts : LoweringOptions) : MRegions → Option MRegions
  | .rnil => some .rnil
  | .rcons b bs =>
    match legalizePhase1 opts b with
    | none => none
    | some b1 =>
      match phase2 opts b1, legalizeRegions opts bs with
      | some b2, some bs2 => some (.rcons b2 bs2)
      | _, _ => none
end

/-- Model of `legalizeHWModule` (source lines 667-971) on one block:
nested regions first, then the per-operation loop with the dialect check.
(The trailing logic-declaration reordering and the use-before-definition
pass of the source only reposition or spill operations and cannot fail;
they do not touch the per-operation facts tracked here.) -/
def legalizeHWModule (opts : LoweringOptions) (b : MBlock) : Option MBlock :=
  match legalizePhase1 opts b with
  | none => none
  | some b1 => phase2 opts b1

mutual
/-- Whether an operation, or anything nested in it, has an unrecognized
dialect. -/
def opHasUnknown : MOp → Bool
  | .mk p rs => (p.dialect == .unknown) || regionsHaveUnknown rs
def regionsHaveUnknown : MRegions → Bool
  | .rnil => false
  | .rcons b bs => blockHasUnknown b || regionsHaveUnknown bs
def blockHasUnknown : MBlock → Bool
  | .bnil => false
  | .bcons op rest => opHasUnknown op || blockHasUnknown rest
end

/-- Whether some operation at the top level of the block has an
unrecognized dialect. -/
def topHasUnknown : MBlock → Bool
  | .bnil => false
  | .bcons (.mk p _) rest => (p.dialect == .unknown) || topHasUnknown rest

/-- Whether some operation nested strictly below the top level of the
block has an unrecognized dialect. -/
def blockNestedUnknown : MBlock → Bool
  | .bnil => false
  | .bcons (.mk _ rs) rest => regionsHaveUnknown rs || blockNestedUnknown rest

mutual
/-- Every operation of the tree rooted at this operation satisfies `q`. -/
def allOpsOp (q : POp → Bool) : MOp → Bool
  | .mk p rs => q p && allOpsRegions q rs
def allOpsRegions (q : POp → Bool) : MRegions → Bool
  | .rnil => true
  | .rcons b bs => allOpsBlock q b && allOpsRegions q bs
def allOpsBlock (q : POp → Bool) : MBlock → Bool
  | .bnil => true
  | .bcons op rest => allOpsOp q op && allOpsBlock q rest
end

/-- Every operation strictly below the top level of the block satisfies
`q`. -/
def blockNestedAll (q : POp → Bool) : MBlock → Bool
  | .bnil => true
  | .bcons (.mk _ rs) rest => allOpsRegions q rs && blockNestedAll q rest

/-- Claim C2's invariant on one operation state: a side-effecting Verilog
expression (not an always-like operation) that remains, unerased, inside a
procedural region must have exactly one use, a blocking Connection into a
reg or automatic-logic declaration. -/
def checkC2 (p : POp) : Bool :=
  !(p.isVerilogExpr && !p.memEffectFree && !p.isAlwaysLike
    && decide (1 ≤ p.depth) && !p.erased)
  || goodSideEffectForm p.uses

/-- A side-effecting Verilog expression with two plain uses, one
procedural level deep, classified inlineable by the oracle. -/
def sideEffOpBad : POp :=
  { dialect := .sv, isVerilogExpr := true, memEffectFree := false,
    emittedInline := true, depth := 1, uses := [.otherUse, .otherUse] }

/-- A one-operation module block holding `sideEffOpBad`. -/
def sideEffBlockBad : MBlock :=
  .bcons (.mk sideEffOpBad .rnil) .bnil

/-- A side-effecting Verilog expression with an output use and a plain
use, one procedural level deep. -/
def sideEffOpW : POp :=
  { dialect := .sv, isVerilogExpr := true, memEffectFree := false,
    emittedInline := true, depth := 1, uses := [.outputUse, .otherUse] }

/-- A one-operation module block holding `sideEffOpW`. -/
def sideEffBlockW : MBlock :=
  .bcons (.mk sideEffOpW .rnil) .bnil

/-- The block `sideEffBlockW` after legalization under
`disallowLocalVariables`: the expression is anchored behind a register. -/
def sideEffBlockWOut : MBlock :=
  .bcons (.mk { sideEffOpW with uses := [.bpassignUse .reg] } .rnil) .bnil

/-- A side-effecting Verilog expression with one plain use, one procedural
level deep. -/
def seOpIdem : POp :=
  { dialect := .sv, isVerilogExpr := true, memEffectFree := false,
    emittedInline := true, depth := 1, uses := [.otherUse] }

/-- Module block holding `seOpIdem`. -/
def seBlockIdem : MBlock :=
  .bcons (.mk seOpIdem .rnil) .bnil

/-- Output of the first legalization run on `seBlockIdem`: the expression
is anchored behind a register but stays in the procedural region. -/
def seBlockIdemOnce : MBlock :=
  .bcons (.mk { seOpIdem with uses := [.bpassignUse .reg] } .rnil) .bnil

/-- Output of the second legalization run: the anchored expression is
additionally hoisted out of the procedural region. -/
def seBlockIdemTwice : MBlock :=
  .bcons (.mk { seOpIdem with uses := [.bpassignUse .reg], depth := 0 }
    .rnil) .bnil

/-- Procedural nesting depth of the first operation of a block. -/
def headDepth : MBlock → Nat
  | .bnil => 0
  | .bcons (.mk p _) _ => p.depth

/-! ### Properties -/

theorem foldl_assoc_shift {f : Nat → Nat → Nat}
    (hf : ∀ a b c, f (f a b) c = f a (f b c)) :
    ∀ (l : List Nat) (a b : Nat), List.foldl f (f a b) l = f a (List.foldl f b l) := by
  intro l
  induction l with
  | nil => intro a b; simp
  | cons x xs ih =>
    intro a b
    simp only [List.foldl_cons]
    rw [hf, ih]

theorem listEval_append {f : Nat → Nat → Nat}
    (hf : ∀ a b c, f (f a b) c = f a (f b c))
    (l1 l2 : List Nat) (h1 : l1 ≠ []) (h2 : l2 ≠ []) :
    listEval f (l1 ++ l2) = f (listEval f l1) (listEval f l2) := by
  match l1, l2 with
  | a :: r1, b :: r2 =>
    simp only [listEval, List.cons_append, List.foldl_append, List.foldl_cons]
    rw [foldl_assoc_shift hf]

theorem binDenote_assoc (k : CombKind) (w : Nat) :
    ∀ a b c, binDenote k w (binDenote k w a b) c
      = binDenote k w a (binDenote k w b c) := by
  intro a b c
  cases k with
  | add =>
    simp only [binDenote]
    rw [Nat.mod_add_mod, Nat.add_mod_mod, Nat.add_assoc]
  | mul =>
    simp only [binDenote]
    conv_lhs => rw [Nat.mul_mod, Nat.mod_mod_of_dvd _ dvd_rfl, ← Nat.mul_mod]
    conv_rhs => rw [Nat.mul_mod, Nat.mod_mod_of_dvd _ dvd_rfl, ← Nat.mul_mod]
    rw [Nat.mul_assoc]
  | andK => simp only [binDenote]; exact Nat.land_assoc a b c
  | orK => simp only [binDenote]; exact Nat.lor_assoc a b c
  | xorK => simp only [binDenote]; exact Nat.xor_assoc a b c

theorem lowerFA_one (k : CombKind) (w : Nat) (attrs : OpAttrs) (v : Nat)
    (ops : List NewOp) :
    lowerFullyAssociativeOp k w attrs [v] ops
      = (v, { attrs with namehint := none }, ops) := by
  simp [lowerFullyAssociativeOp]

theorem lowerFA_two (k : CombKind) (w : Nat) (attrs : OpAttrs) (a b : Nat)
    (ops : List NewOp) :
    lowerFullyAssociativeOp k w attrs [a, b] ops
      = (binDenote k w a b, { attrs with namehint := none },
         ops ++ [{ kind := k, operands := [a, b], namehint := attrs.namehint,
                   twoState := attrs.twoState }]) := by
  simp [lowerFullyAssociativeOp]

theorem lowerFA_cons3 (k : CombKind) (w : Nat) (attrs : OpAttrs)
    (v0 v1 v2 : Nat) (rest : List Nat) (ops : List NewOp) :
    lowerFullyAssociativeOp k w attrs (v0 :: v1 :: v2 :: rest) ops
      = (binDenote k w
           (lowerFullyAssociativeOp k w { attrs with namehint := none }
             ((v0 :: v1 :: v2 :: rest).take ((v0 :: v1 :: v2 :: rest).length / 2))
             ops).1
           (lowerFullyAssociativeOp k w
             (lowerFullyAssociativeOp k w { attrs with namehint := none }
               ((v0 :: v1 :: v2 :: rest).take ((v0 :: v1 :: v2 :: rest).length / 2))
               ops).2.1
             ((v0 :: v1 :: v2 :: rest).drop ((v0 :: v1 :: v2 :: rest).length / 2))
             (lowerFullyAssociativeOp k w { attrs with namehint := none }
               ((v0 :: v1 :: v2 :: rest).take ((v0 :: v1 :: v2 :: rest).length / 2))
               ops).2.2).1,
         (lowerFullyAssociativeOp k w
             (lowerFullyAssociativeOp k w { attrs with namehint := none }
               ((v0 :: v1 :: v2 :: rest).take ((v0 :: v1 :: v2 :: rest).length / 2))
               ops).2.1
             ((v0 :: v1 :: v2 :: rest).drop ((v0 :: v1 :: v2 :: rest).length / 2))
             (lowerFullyAssociativeOp k w { attrs with namehint := none }
               ((v0 :: v1 :: v2 :: rest).take ((v0 :: v1 :: v2 :: rest).length / 2))
               ops).2.2).2.1,
         (lowerFullyAssociativeOp k w
             (lowerFullyAssociativeOp k w { attrs with namehint := none }
               ((v0 :: v1 :: v2 :: rest).take ((v0 :: v1 :: v2 :: rest).length / 2))
               ops).2.1
             ((v0 :: v1 :: v2 :: rest).drop ((v0 :: v1 :: v2 :: rest).length / 2))
             (lowerFullyAssociativeOp k w { attrs with namehint := none }
               ((v0 :: v1 :: v2 :: rest).take ((v0 :: v1 :: v2 :: rest).length / 2))
               ops).2.2).2.2
           ++ [{ kind := k,
                 operands :=
                   [(lowerFullyAssociativeOp k w { attrs with namehint := none }
                      ((v0 :: v1 :: v2 :: rest).take
                        ((v0 :: v1 :: v2 :: rest).length / 2)) ops).1,
                    (lowerFullyAssociativeOp k w
                      (lowerFullyAssociativeOp k w { attrs with namehint := none }
                        ((v0 :: v1 :: v2 :: rest).take
                          ((v0 :: v1 :: v2 :: rest).length / 2)) ops).2.1
                      ((v0 :: v1 :: v2 :: rest).drop
                        ((v0 :: v1 :: v2 :: rest).length / 2))
                      (lowerFullyAssociativeOp k w { attrs with namehint := none }
                        ((v0 :: v1 :: v2 :: rest).take
                          ((v0 :: v1 :: v2 :: rest).length / 2)) ops).2.2).1],
                 namehint := attrs.namehint,
                 twoState :=
                   (lowerFullyAssociativeOp k w
                      (lowerFullyAssociativeOp k w { attrs with namehint := none }
                        ((v0 :: v1 :: v2 :: rest).take
                          ((v0 :: v1 :: v2 :: rest).length / 2)) ops).2.1
                      ((v0 :: v1 :: v2 :: rest).drop
                        ((v0 :: v1 :: v2 :: rest).length / 2))
                      (lowerFullyAssociativeOp k w { attrs with namehint := none }
                        ((v0 :: v1 :: v2 :: rest).take
                          ((v0 :: v1 :: v2 :: rest).length / 2)) ops).2.2).2.1.twoState }]) := by
  rw [lowerFullyAssociativeOp]

/-- Master characterization of the balancing rewrite, proved by strong
induction on the operand-list length: value of the produced tree, returned
attributes, and the shape of the accumulated freshly created operations. -/
theorem lowerFullyAssociativeOp_spec :
    ∀ (n : Nat) (vs : List Nat), vs.length ≤ n → vs ≠ [] →
    ∀ (k : CombKind) (w : Nat) (attrs : OpAttrs) (ops : List NewOp),
      (lowerFullyAssociativeOp k w attrs vs ops).1 = listEval (binDenote k w) vs
      ∧ (lowerFullyAssociativeOp k w attrs vs ops).2.1
          = { attrs with namehint := none }
      ∧ ∃ created : List NewOp,
          (lowerFullyAssociativeOp k w attrs vs ops).2.2 = ops ++ created
          ∧ created.length = vs.length - 1
          ∧ (∀ o ∈ created,
              o.kind = k ∧ o.operands.length = 2 ∧ o.twoState = attrs.twoState)
          ∧ (2 ≤ vs.length →
              ∃ rfront root, created = rfront ++ [root]
                ∧ root.namehint = attrs.namehint
                ∧ ∀ o ∈ rfront, o.namehint = none) := by
  intro n
  induction n with
  | zero =>
    intro vs h hne
    cases vs with
    | nil => exact absurd rfl hne
    | cons a l => simp at h
  | succ n ih =>
    intro vs hlen hne k w attrs ops
    match vs with
    | [] => exact absurd rfl hne
    | [v] =>
      rw [lowerFA_one]
      exact ⟨rfl, rfl, [], by simp, by simp, by simp, by intro h2; simp at h2⟩
    | [a, b] =>
      rw [lowerFA_two]
      refine ⟨rfl, rfl, _, rfl, by simp, ?_, ?_⟩
      · intro o ho; simp at ho; subst ho; exact ⟨rfl, rfl, rfl⟩
      · intro h2
        have hsingle :
            ([{ kind := k, operands := [a, b],
                namehint := attrs.namehint,
                twoState := attrs.twoState }] : List NewOp)
            = []
              ++ [{ kind := k, operands := [a, b],
                    namehint := attrs.namehint,
                    twoState := attrs.twoState }] := by
          simp
        exact ⟨[], _, hsingle, rfl, by simp⟩
    | v0 :: v1 :: v2 :: rest =>
      have hlen3 : 3 ≤ (v0 :: v1 :: v2 :: rest).length := by simp
      have hfh1 : 1 ≤ (v0 :: v1 :: v2 :: rest).length / 2 := by omega
      have hfhlt : (v0 :: v1 :: v2 :: rest).length / 2
          < (v0 :: v1 :: v2 :: rest).length := by omega
      have htake_len :
          ((v0 :: v1 :: v2 :: rest).take
            ((v0 :: v1 :: v2 :: rest).length / 2)).length
          = (v0 :: v1 :: v2 :: rest).length / 2 := by
        rw [List.length_take]; omega
      have hdrop_len :
          ((v0 :: v1 :: v2 :: rest).drop
            ((v0 :: v1 :: v2 :: rest).length / 2)).length
          = (v0 :: v1 :: v2 :: rest).length
            - (v0 :: v1 :: v2 :: rest).length / 2 := by
        rw [List.length_drop]
      have htake_ne :
          (v0 :: v1 :: v2 :: rest).take
            ((v0 :: v1 :: v2 :: rest).length / 2) ≠ [] := by
        intro hc
        have := congrArg List.length hc
        rw [htake_len] at this
        simp at this
        omega
      have hdrop_ne :
          (v0 :: v1 :: v2 :: rest).drop
            ((v0 :: v1 :: v2 :: rest).length / 2) ≠ [] := by
        intro hc
        have := congrArg List.length hc
        rw [hdrop_len] at this
        simp at this
        omega
      -- induction hypotheses for the two halves
      obtain ⟨ha1, ha2, c1, ha3, ha4, ha5, ha6⟩ :=
        ih ((v0 :: v1 :: v2 :: rest).take ((v0 :: v1 :: v2 :: rest).length / 2))
          (by rw [htake_len]; simp at hlen ⊢; omega) htake_ne k w
          { attrs with namehint := none } ops
      obtain ⟨hb1, hb2, c2, hb3, hb4, hb5, hb6⟩ :=
        ih ((v0 :: v1 :: v2 :: rest).drop ((v0 :: v1 :: v2 :: rest).length / 2))
          (by rw [hdrop_len]; simp at hlen ⊢; omega) hdrop_ne k w
          { attrs with namehint := none } (ops ++ c1)
      rw [lowerFA_cons3, ha1, ha2, ha3, hb1, hb2, hb3]
      refine ⟨?_, rfl, c1 ++ (c2 ++
        [{ kind := k,
           operands := [listEval (binDenote k w)
               ((v0 :: v1 :: v2 :: rest).take
                 ((v0 :: v1 :: v2 :: rest).length / 2)),
             listEval (binDenote k w)
               ((v0 :: v1 :: v2 :: rest).drop
                 ((v0 :: v1 :: v2 :: rest).length / 2))],
           namehint := attrs.namehint,
           twoState := attrs.twoState }]), by simp, ?_, ?_, ?_⟩
      · -- value of the tree equals the seeded left fold
        conv_rhs =>
          rw [← List.take_append_drop ((v0 :: v1 :: v2 :: rest).length / 2)
            (v0 :: v1 :: v2 :: rest)]
        rw [listEval_append (binDenote_assoc k w) _ _ htake_ne hdrop_ne]
      · -- created-op count
        have e1 := ha4
        rw [htake_len] at e1
        have e2 := hb4
        rw [hdrop_len] at e2
        simp only [List.length_append, List.length_cons, List.length_nil]
        simp only [List.length_cons] at e1 e2 hfh1 hfhlt
        omega
      · -- per-op structural facts
        intro o ho
        simp only [List.mem_append, List.mem_singleton] at ho
        rcases ho with ho | ho | ho
        · exact ha5 o ho
        · exact hb5 o ho
        · subst ho; exact ⟨rfl, rfl, rfl⟩
      · -- namehint placement: root gets the hint, the front gets none
        intro _
        have hc1 : ∀ o ∈ c1, o.namehint = none := by
          rcases Nat.eq_zero_or_pos c1.length with hz | hpos
          · intro o ho'; rw [List.length_eq_zero] at hz; subst hz; simp at ho'
          · obtain ⟨rf1, rt1, hsplit, hroot, hfront⟩ := ha6 (by
              rw [htake_len] at ha4; omega)
            intro o ho'
            rw [hsplit] at ho'
            simp only [List.mem_append, List.mem_singleton] at ho'
            rcases ho' with ho' | ho'
            · exact hfront o ho'
            · subst ho'; exact hroot
        have hc2 : ∀ o ∈ c2, o.namehint = none := by
          rcases Nat.eq_zero_or_pos c2.length with hz | hpos
          · intro o ho'; rw [List.length_eq_zero] at hz; subst hz; simp at ho'
          · obtain ⟨rf2, rt2, hsplit, hroot, hfront⟩ := hb6 (by
              rw [hdrop_len] at hb4; omega)
            intro o ho'
            rw [hsplit] at ho'
            simp only [List.mem_append, List.mem_singleton] at ho'
            rcases ho' with ho' | ho'
            · exact hfront o ho'
            · subst ho'; exact hroot
        refine ⟨c1 ++ c2,
          { kind := k,
            operands := [listEval (binDenote k w)
                ((v0 :: v1 :: v2 :: rest).take
                  ((v0 :: v1 :: v2 :: rest).length / 2)),
              listEval (binDenote k w)
                ((v0 :: v1 :: v2 :: rest).drop
                  ((v0 :: v1 :: v2 :: rest).length / 2))],
            namehint := attrs.namehint,
            twoState := attrs.twoState }, by simp, rfl, ?_⟩
        intro o ho
        simp only [List.mem_append] at ho
        rcases ho with ho | ho
        · exact hc1 o ho
        · exact hc2 o ho

theorem foldl_add_mod (w : Nat) :
    ∀ (rest : List Nat) (a : Nat),
      List.foldl (binDenote .add w) (a % 2 ^ w) rest = (a + rest.sum) % 2 ^ w := by
  intro rest
  induction rest with
  | nil => intro a; simp
  | cons x xs ih =>
    intro a
    simp only [List.foldl_cons, List.sum_cons, binDenote]
    rw [Nat.mod_add_mod, ih (a + x), Nat.add_assoc]

theorem foldl_mul_mod (w : Nat) :
    ∀ (rest : List Nat) (a : Nat),
      List.foldl (binDenote .mul w) (a % 2 ^ w) rest = (a * rest.prod) % 2 ^ w := by
  intro rest
  induction rest with
  | nil => intro a; simp
  | cons x xs ih =>
    intro a
    simp only [List.foldl_cons, List.prod_cons, binDenote]
    have hl : a % 2 ^ w * x % 2 ^ w = a * x % 2 ^ w := by
      rw [Nat.mul_comm (a % 2 ^ w) x, Nat.mul_mod_mod, Nat.mul_comm]
    rw [hl, ih (a * x), Nat.mul_assoc]

theorem foldl_bitwise {g : Nat → Nat → Nat}
    (hg : ∀ a b c, g (g a b) c = g a (g b c)) :
    ∀ (rest : List Nat) (v : Nat),
      List.foldl g v rest = variadicBitwise g (v :: rest) := by
  intro rest
  induction rest with
  | nil => intro v; simp [variadicBitwise]
  | cons x xs ih =>
    intro v
    simp only [List.foldl_cons]
    rw [ih (g v x)]
    cases xs with
    | nil => simp [variadicBitwise]
    | cons y ys =>
      show variadicBitwise g (g v x :: y :: ys)
        = variadicBitwise g (v :: x :: y :: ys)
      simp only [variadicBitwise]
      rw [hg]

/-- The seeded left fold of the binary operation over a list with at least
two elements agrees with the reference N-ary semantics of the variadic
operation. -/
theorem listEval_variadicDenote (k : CombKind) (w : Nat) (vs : List Nat)
    (h : 2 ≤ vs.length) :
    listEval (binDenote k w) vs = variadicDenote k w vs := by
  match vs with
  | v :: b :: rest =>
    cases k with
    | add =>
      show List.foldl (binDenote .add w) v (b :: rest)
        = (v :: b :: rest).sum % 2 ^ w
      simp only [List.foldl_cons]
      have hvb : binDenote .add w v b = (v + b) % 2 ^ w := rfl
      rw [hvb, foldl_add_mod w rest (v + b)]
      simp [Nat.add_assoc]
    | mul =>
      show List.foldl (binDenote .mul w) v (b :: rest)
        = (v :: b :: rest).prod % 2 ^ w
      simp only [List.foldl_cons]
      have hvb : binDenote .mul w v b = (v * b) % 2 ^ w := rfl
      rw [hvb, foldl_mul_mod w rest (v * b)]
      simp [Nat.mul_assoc]
    | andK =>
      exact foldl_bitwise (fun a b c => Nat.land_assoc a b c) (b :: rest) v
    | orK =>
      exact foldl_bitwise (fun a b c => Nat.lor_assoc a b c) (b :: rest) v
    | xorK =>
      exact foldl_bitwise (fun a b c => Nat.xor_assoc a b c) (b :: rest) v

/-- C1: for every commutative, memory-effect-free, single-result expression
with N operands, N > 2, the balancing rewrite produces exactly N-1 new
binary nodes of the same operator, each with exactly 2 operands, and the
value of the produced tree equals the N-ary operation's result under every
concrete assignment of the operand values. -/
theorem C1_balancing_correct (k : CombKind) (w : Nat) (attrs : OpAttrs)
    (vs : List Nat) (h : 2 < vs.length) :
    ((lowerFullyAssociativeOp k w attrs vs []).2.2).length = vs.length - 1
    ∧ (∀ o ∈ (lowerFullyAssociativeOp k w attrs vs []).2.2,
        o.kind = k ∧ o.operands.length = 2)
    ∧ (lowerFullyAssociativeOp k w attrs vs []).1 = variadicDenote k w vs := by
  obtain ⟨h1, h2, created, h3, h4, h5, h6⟩ :=
    lowerFullyAssociativeOp_spec vs.length vs le_rfl
      (by intro hc; subst hc; simp at h) k w attrs []
  rw [h3]
  simp only [List.nil_append]
  refine ⟨h4, fun o ho => ⟨(h5 o ho).1, (h5 o ho).2.1⟩, ?_⟩
  rw [h1]
  exact listEval_variadicDenote k w vs (by omega)

/-- Witness for C1 at a concrete input: a 5-operand `comb.add` at width 4. -/
theorem C1_balancing_correct_witness :
    (2 < ([1, 2, 3, 4, 5] : List Nat).length)
    ∧ (((lowerFullyAssociativeOp .add 4 ⟨some "s", true⟩
          [1, 2, 3, 4, 5] []).2.2).length = [1, 2, 3, 4, 5].length - 1
      ∧ (∀ o ∈ (lowerFullyAssociativeOp .add 4 ⟨some "s", true⟩
            [1, 2, 3, 4, 5] []).2.2, o.kind = .add ∧ o.operands.length = 2)
      ∧ (lowerFullyAssociativeOp .add 4 ⟨some "s", true⟩ [1, 2, 3, 4, 5] []).1
          = variadicDenote .add 4 [1, 2, 3, 4, 5]) :=
  ⟨by decide,
   C1_balancing_correct .add 4 ⟨some "s", true⟩ [1, 2, 3, 4, 5] (by decide)⟩

/-- C6 counterexample: on a 3-operand add carrying both markers, the first
created operation (an intermediate node: the root is created last) carries
the `twoState` marker, so the claim that no intermediate node of the new
tree carries either marker is false. -/
theorem C6_counterexample :
    ((lowerFullyAssociativeOp .add 2 ⟨some "x", true⟩ [0, 0, 0] []).2.2).map
        (fun o => (o.namehint, o.twoState))
      = [(none, true), (some "x", true)]
    ∧ ¬ (∀ o ∈ ((lowerFullyAssociativeOp .add 2 ⟨some "x", true⟩
          [0, 0, 0] []).2.2).dropLast,
        o.namehint = none ∧ o.twoState = false) := by
  constructor
  · simp [lowerFullyAssociativeOp, binDenote]
  · intro hall
    have hmem := hall { kind := .add, operands := [0, 0], namehint := none,
                        twoState := true }
      (by simp [lowerFullyAssociativeOp, binDenote])
    exact absurd hmem.2 (by decide)

/-- C6 amended: the name hint is carried by the top-level (root) node of
the new tree only, while the `twoState` marker is copied onto every node of
the new tree, intermediates included (the source re-reads the original
operation's `twoState` attribute, which is never removed, at each node
creation). -/
theorem C6_amended_markers (k : CombKind) (w : Nat) (attrs : OpAttrs)
    (vs : List Nat) (h : 2 < vs.length) :
    ∃ rfront root,
      (lowerFullyAssociativeOp k w attrs vs []).2.2 = rfront ++ [root]
      ∧ root.namehint = attrs.namehint
      ∧ (∀ o ∈ rfront, o.namehint = none)
      ∧ (∀ o ∈ (lowerFullyAssociativeOp k w attrs vs []).2.2,
          o.twoState = attrs.twoState) := by
  obtain ⟨h1, h2, created, h3, h4, h5, h6⟩ :=
    lowerFullyAssociativeOp_spec vs.length vs le_rfl
      (by intro hc; subst hc; simp at h) k w attrs []
  obtain ⟨rfront, root, hsplit, hroot, hfront⟩ := h6 (by omega)
  rw [h3]
  simp only [List.nil_append]
  rw [hsplit] at h5 ⊢
  exact ⟨rfront, root, rfl, hroot, hfront, fun o ho => (h5 o ho).2.2⟩

/-- Witness for the amended C6 at a concrete input. -/
theorem C6_amended_markers_witness :
    (2 < ([6, 7, 8] : List Nat).length)
    ∧ ∃ rfront root,
        (lowerFullyAssociativeOp .orK 3 ⟨some "n", true⟩ [6, 7, 8] []).2.2
          = rfront ++ [root]
        ∧ root.namehint = some "n"
        ∧ (∀ o ∈ rfront, o.namehint = none)
        ∧ (∀ o ∈ (lowerFullyAssociativeOp .orK 3 ⟨some "n", true⟩
              [6, 7, 8] []).2.2, o.twoState = true) :=
  ⟨by decide, C6_amended_markers .orK 3 ⟨some "n", true⟩ [6, 7, 8] (by decide)⟩

/-- C9: for a two-operand add whose second operand is a negative constant
`c` at width `w`, the rewrite produces a subtraction of the two's-complement
negation of `c` whose value equals the original add modulo `2 ^ w`, and the
constant node is erased exactly when it has no remaining use. -/
theorem C9_add_negative_constant (w a c cstOtherUses : Nat) (_hw1 : 0 < w)
    (hc : c < 2 ^ w) (hneg : apIntIsNegative w c = true) :
    (rewriteAddWithNegativeConstant w a c cstOtherUses).result = addDenote w a c
    ∧ ((rewriteAddWithNegativeConstant w a c cstOtherUses).cstErased = true
        ↔ cstOtherUses = 0)
    ∧ (rewriteAddWithNegativeConstant w a c cstOtherUses).negCst
        = 2 ^ w - c
    ∧ (rewriteAddWithNegativeConstant w a c cstOtherUses).addErased = true := by
  have hcpos : 1 ≤ c := by
    have hle : 2 ^ (w - 1) ≤ c := Nat.testBit_implies_ge hneg
    have h1 : 1 ≤ 2 ^ (w - 1) := Nat.one_le_two_pow
    omega
  have hmpos : 1 ≤ 2 ^ w := Nat.one_le_two_pow
  have hcm : c % 2 ^ w = c := Nat.mod_eq_of_lt hc
  have hnegc : apIntNeg w c = 2 ^ w - c := by
    rw [apIntNeg, hcm]
    exact Nat.mod_eq_of_lt (by omega)
  refine ⟨?_, ?_, ?_, rfl⟩
  · show subDenote w a (apIntNeg w c) = addDenote w a c
    rw [hnegc, subDenote, addDenote]
    have hnm : (2 ^ w - c) % 2 ^ w = 2 ^ w - c := Nat.mod_eq_of_lt (by omega)
    rw [hnm]
    have hsub : 2 ^ w - (2 ^ w - c) = c := by omega
    rw [hsub, Nat.mod_add_mod]
  · show (cstOtherUses == 0) = true ↔ cstOtherUses = 0
    simp
  · exact hnegc

/-- Witness for C9 at a concrete input: width 4, `a = 5`, constant
`c = 13` (the bit pattern of `-3`), no other use of the constant. -/
theorem C9_add_negative_constant_witness :
    (0 < 4 ∧ 13 < 2 ^ 4 ∧ apIntIsNegative 4 13 = true)
    ∧ ((rewriteAddWithNegativeConstant 4 5 13 0).result = addDenote 4 5 13
      ∧ ((rewriteAddWithNegativeConstant 4 5 13 0).cstErased = true ↔ 0 = 0)
      ∧ (rewriteAddWithNegativeConstant 4 5 13 0).negCst = 2 ^ 4 - 13
      ∧ (rewriteAddWithNegativeConstant 4 5 13 0).addErased = true) :=
  ⟨⟨by decide, by decide, by decide⟩,
   C9_add_negative_constant 4 5 13 0 (by decide) (by decide) (by decide)⟩

theorem reuseScan_some (a : AssignData) :
    ∀ (us : List MUse) (others : List MUse),
      reuseScan us (some a) others
        = if us.any isAssignUse then none
          else some (some a, others ++ us.filter (fun u => !isAssignUse u)) := by
  intro us
  induction us with
  | nil => intro others; simp [reuseScan]
  | cons u rest ih =>
    intro others
    cases u with
    | assignUse top srcC => simp [reuseScan, isAssignUse]
    | bpassignUse dk =>
      simp [reuseScan, isAssignUse, ih (others ++ [MUse.bpassignUse dk])]
    | outputUse =>
      simp [reuseScan, isAssignUse, ih (others ++ [MUse.outputUse])]
    | instanceUse =>
      simp [reuseScan, isAssignUse, ih (others ++ [MUse.instanceUse])]
    | bitcastUse bus =>
      simp [reuseScan, isAssignUse, ih (others ++ [MUse.bitcastUse bus])]
    | otherUse =>
      simp [reuseScan, isAssignUse, ih (others ++ [MUse.otherUse])]

theorem reuseScan_none :
    ∀ (us : List MUse) (others : List MUse),
      reuseScan us none others = scanNoneSpec us others := by
  intro us
  induction us with
  | nil => intro others; simp [reuseScan, scanNoneSpec]
  | cons u rest ih =>
    intro others
    cases u with
    | assignUse top srcC =>
      cases top with
      | false =>
        simp [reuseScan, scanNoneSpec, isAssignUse, List.filter_cons]
      | true =>
        rw [show reuseScan (.assignUse true srcC :: rest) none others
            = reuseScan rest (some ⟨true, srcC⟩) others from rfl]
        rw [reuseScan_some]
        by_cases hany : rest.any isAssignUse
        · rw [if_pos hany]
          have hne : rest.filter isAssignUse ≠ [] := by
            intro hc
            rw [List.any_eq_true] at hany
            obtain ⟨x, hx, hpx⟩ := hany
            have : x ∈ rest.filter isAssignUse := List.mem_filter.mpr ⟨hx, hpx⟩
            rw [hc] at this
            simp at this
          unfold scanNoneSpec
          simp only [List.filter_cons, isAssignUse, if_pos]
          match hm : rest.filter isAssignUse with
          | [] => exact absurd hm hne
          | x :: xs =>
            cases x with
            | assignUse t2 s2 => cases t2 <;> rfl
            | bpassignUse dk => rfl
            | outputUse => rfl
            | instanceUse => rfl
            | bitcastUse bus => rfl
            | otherUse => rfl
        · rw [if_neg hany]
          have hfil : rest.filter isAssignUse = [] := by
            rw [List.filter_eq_nil_iff]
            intro x hx
            intro hpx
            exact hany (List.any_eq_true.mpr ⟨x, hx, hpx⟩)
          unfold scanNoneSpec
          simp only [List.filter_cons, isAssignUse, hfil]
          rfl
    | bpassignUse dk =>
      rw [show reuseScan (.bpassignUse dk :: rest) none others
          = reuseScan rest none (others ++ [.bpassignUse dk]) from rfl]
      rw [ih]
      unfold scanNoneSpec
      simp only [List.filter_cons, isAssignUse, List.append_assoc]
      rfl
    | outputUse =>
      rw [show reuseScan (.outputUse :: rest) none others
          = reuseScan rest none (others ++ [.outputUse]) from rfl]
      rw [ih]
      unfold scanNoneSpec
      simp only [List.filter_cons, isAssignUse, List.append_assoc]
      rfl
    | instanceUse =>
      rw [show reuseScan (.instanceUse :: rest) none others
          = reuseScan rest none (others ++ [.instanceUse]) from rfl]
      rw [ih]
      unfold scanNoneSpec
      simp only [List.filter_cons, isAssignUse, List.append_assoc]
      rfl
    | bitcastUse bus =>
      rw [show reuseScan (.bitcastUse bus :: rest) none others
          = reuseScan rest none (others ++ [.bitcastUse bus]) from rfl]
      rw [ih]
      unfold scanNoneSpec
      simp only [List.filter_cons, isAssignUse, List.append_assoc]
      rfl
    | otherUse =>
      rw [show reuseScan (.otherUse :: rest) none others
          = reuseScan rest none (others ++ [.otherUse]) from rfl]
      rw [ih]
      unfold scanNoneSpec
      simp only [List.filter_cons, isAssignUse, List.append_assoc]
      rfl

theorem any_eq_not_isEmpty_filter {α : Type} (p : α → Bool) (l : List α) :
    l.any p = !(l.filter p).isEmpty := by
  induction l with
  | nil => rfl
  | cons x xs ih =>
    cases hx : p x <;> simp [List.any_cons, List.filter_cons, hx, ih]

/-- C8 amended: the declaration-reuse rewrite fires exactly when the node
has exactly one continuous-assign use located at module top level, at
least one other non-assign use (a procedural Connection counts as such an
other use), and the assign's source is not a constant; when it fires, the
node's remaining use is that assign alone, one fresh read of the assign's
destination is created per redirected non-assign use, and no declaration
is created. -/
theorem C8_reuse_exact (uses : List MUse) :
    ((reuseExistingInOut uses).fired = reuseFirePred uses)
    ∧ (reuseFirePred uses = true →
        (reuseExistingInOut uses).uses = uses.filter isAssignUse
        ∧ (reuseExistingInOut uses).readsCreated
            = (uses.filter (fun u => !isAssignUse u)).length
        ∧ (reuseExistingInOut uses).declsCreated = 0) := by
  match hfil : uses.filter isAssignUse with
  | [] =>
    have hscan2 : reuseScan uses none []
        = some (none, [] ++ uses.filter (fun u => !isAssignUse u)) := by
      rw [reuseScan_none]; unfold scanNoneSpec; rw [hfil]
    have hre : reuseExistingInOut uses
        = { fired := false, uses := uses, readsCreated := 0,
            declsCreated := 0 } := by
      unfold reuseExistingInOut; rw [hscan2]
    constructor
    · rw [hre]; simp only [reuseFirePred, hfil]
    · intro hp; simp only [reuseFirePred, hfil] at hp
      exact absurd hp (by decide)
  | [u] =>
    have humem : isAssignUse u = true := by
      have : u ∈ uses.filter isAssignUse := by rw [hfil]; simp
      exact (List.mem_filter.mp this).2
    match u, humem with
    | .assignUse top srcC, _ =>
      cases top with
      | false =>
        have hscan2 : reuseScan uses none [] = none := by
          rw [reuseScan_none]; unfold scanNoneSpec; rw [hfil]
        have hre : reuseExistingInOut uses
            = { fired := false, uses := uses, readsCreated := 0,
                declsCreated := 0 } := by
          unfold reuseExistingInOut; rw [hscan2]
        constructor
        · rw [hre]; simp only [reuseFirePred, hfil]
          simp
        · intro hp; simp only [reuseFirePred, hfil] at hp
          simp at hp
      | true =>
        have hscan2 : reuseScan uses none []
            = some (some ⟨true, srcC⟩,
                [] ++ uses.filter (fun u => !isAssignUse u)) := by
          rw [reuseScan_none]; unfold scanNoneSpec; rw [hfil]
        have hany := any_eq_not_isEmpty_filter
          (fun u => !isAssignUse u) uses
        cases srcC with
        | true =>
          have hre : reuseExistingInOut uses
              = { fired := false, uses := uses, readsCreated := 0,
                  declsCreated := 0 } := by
            unfold reuseExistingInOut
            rw [hscan2]
            cases hq : ([] ++ uses.filter (fun u => !isAssignUse u)).isEmpty
              <;> simp [hq]
          constructor
          · rw [hre]; simp only [reuseFirePred, hfil]
            simp
          · intro hp; simp only [reuseFirePred, hfil] at hp
            simp at hp
        | false =>
          cases hq : (uses.filter (fun u => !isAssignUse u)).isEmpty with
          | true =>
            have hre : reuseExistingInOut uses
                = { fired := false, uses := uses, readsCreated := 0,
                    declsCreated := 0 } := by
              unfold reuseExistingInOut
              rw [hscan2]
              simp [hq]
            constructor
            · rw [hre]; simp only [reuseFirePred, hfil]
              rw [hany, hq]
              simp
            · intro hp
              simp only [reuseFirePred, hfil] at hp
              rw [hany, hq] at hp
              simp at hp
          | false =>
            have hre : reuseExistingInOut uses
                = { fired := true, uses := [.assignUse true false],
                    readsCreated :=
                      (uses.filter (fun u => !isAssignUse u)).length,
                    declsCreated := 0 } := by
              unfold reuseExistingInOut
              rw [hscan2]
              simp [hq]
            constructor
            · rw [hre]; simp only [reuseFirePred, hfil]
              rw [hany, hq]
              simp
            · intro _
              rw [hre]
              exact ⟨rfl, rfl, rfl⟩
  | x :: y :: ys =>
    have hxmem : isAssignUse x = true := by
      have : x ∈ uses.filter isAssignUse := by rw [hfil]; simp
      exact (List.mem_filter.mp this).2
    match x, hxmem with
    | .assignUse tx sx, _ =>
      have hscan2 : reuseScan uses none [] = none := by
        rw [reuseScan_none]; unfold scanNoneSpec; rw [hfil]
        cases tx <;> rfl
      have hre : reuseExistingInOut uses
          = { fired := false, uses := uses, readsCreated := 0,
              declsCreated := 0 } := by
        unfold reuseExistingInOut; rw [hscan2]
      constructor
      · rw [hre]; simp only [reuseFirePred, hfil]
      · intro hp
        simp only [reuseFirePred, hfil] at hp
        exact absurd hp (by decide)

/-- C8 counterexample: a node whose uses are one top-level continuous
assign (source not constant) and one procedural Connection (`sv.bpassign`)
has no non-Connection use at all, so by the claim the rewrite must not
fire; the code does fire, because it counts every non-assign use —
including procedural Connections — as an "other" use. -/
theorem C8_counterexample :
    (reuseExistingInOut
        [.assignUse true false, .bpassignUse .otherDecl]).fired = true
    ∧ reuseFirePredClaimC8
        [.assignUse true false, .bpassignUse .otherDecl] = false := by
  exact ⟨rfl, rfl⟩

/-- Witness for the amended C8 at a concrete input on which the rewrite
fires. -/
theorem C8_reuse_exact_witness :
    ((reuseExistingInOut [.otherUse, .assignUse true false]).fired
        = reuseFirePred [.otherUse, .assignUse true false])
    ∧ reuseFirePred [.otherUse, .assignUse true false] = true
    ∧ ((reuseExistingInOut [.otherUse, .assignUse true false]).uses
          = [MUse.otherUse, .assignUse true false].filter isAssignUse
      ∧ (reuseExistingInOut [.otherUse, .assignUse true false]).readsCreated
          = ([MUse.otherUse, .assignUse true false].filter
              (fun u => !isAssignUse u)).length
      ∧ (reuseExistingInOut [.otherUse, .assignUse true false]).declsCreated
          = 0) :=
  ⟨(C8_reuse_exact [.otherUse, .assignUse true false]).1, rfl,
   (C8_reuse_exact [.otherUse, .assignUse true false]).2 rfl⟩

/-- C10: the declaration-reuse rewrite is atomic on failure — whenever it
declines to fire, it returns with the expression's uses unchanged, no read
created, and no declaration created. -/
theorem C10_reuse_atomic (uses : List MUse)
    (h : (reuseExistingInOut uses).fired = false) :
    reuseExistingInOut uses
      = { fired := false, uses := uses, readsCreated := 0,
          declsCreated := 0 } := by
  unfold reuseExistingInOut at h ⊢
  cases hscan : reuseScan uses none [] with
  | none => rfl
  | some p =>
    rw [hscan] at h
    match p, h with
    | (none, others), _ => rfl
    | (some a, others), h =>
      have h2 : (if others.isEmpty = true then
          ({ fired := false, uses := uses, readsCreated := 0,
             declsCreated := 0 } : ReuseResult)
        else if a.srcIsConstant = true then
          { fired := false, uses := uses, readsCreated := 0,
            declsCreated := 0 }
        else
          { fired := true, uses := [MUse.assignUse a.atTopLevel a.srcIsConstant],
            readsCreated := others.length, declsCreated := 0 }).fired
          = false := h
      show (if others.isEmpty = true then
          ({ fired := false, uses := uses, readsCreated := 0,
             declsCreated := 0 } : ReuseResult)
        else if a.srcIsConstant = true then
          { fired := false, uses := uses, readsCreated := 0,
            declsCreated := 0 }
        else
          { fired := true, uses := [MUse.assignUse a.atTopLevel a.srcIsConstant],
            readsCreated := others.length, declsCreated := 0 })
          = { fired := false, uses := uses, readsCreated := 0,
              declsCreated := 0 }
      by_cases hq1 : others.isEmpty = true
      · rw [if_pos hq1]
      · rw [if_neg hq1] at h2 ⊢
        by_cases hq2 : a.srcIsConstant = true
        · rw [if_pos hq2]
        · rw [if_neg hq2] at h2
          simp at h2

/-- Witness for C10 at a concrete declined input (no assign use at all). -/
theorem C10_reuse_atomic_witness :
    ((reuseExistingInOut [.otherUse]).fired = false)
    ∧ reuseExistingInOut [.otherUse]
        = { fired := false, uses := [.otherUse], readsCreated := 0,
            declsCreated := 0 } :=
  ⟨rfl, C10_reuse_atomic [.otherUse] rfl⟩

/-- C7 counterexample: (a) a node whose sole use is a bitcast whose sole
use is an Instance operand is still spilled by the code once its cost
exceeds the maximum (the code's bitcast-level check does not include
Instance), contradicting the claim's "never if ... Instance operand —
also checked through one level of a bitcast"; (b) a node whose reserved-
prefix hint has cost exactly equal to `wireSpillingNamehintTermLimit` is
spilled by the code (`>=`), while the claim requires the cost to strictly
exceed the threshold. -/
theorem C7_counterexample :
    shouldSpillWireBasedOnState
        { disallowLocalVariables := false,
          disallowExpressionInliningInPorts := false,
          allowExprInEventControl := true,
          maximumNumberOfTermsPerExpression := 0,
          spillLargeTermsWithNamehints := false,
          wireSpillingNamehintTermLimit := 0 }
        { uses := [.bitcastUse [.instanceUse]], size := 1 } = true
    ∧ shouldSpillWire_claimC7
        { disallowLocalVariables := false,
          disallowExpressionInliningInPorts := false,
          allowExprInEventControl := true,
          maximumNumberOfTermsPerExpression := 0,
          spillLargeTermsWithNamehints := false,
          wireSpillingNamehintTermLimit := 0 }
        { uses := [.bitcastUse [.instanceUse]], size := 1 } = false
    ∧ shouldSpillWireBasedOnState
        { disallowLocalVariables := false,
          disallowExpressionInliningInPorts := false,
          allowExprInEventControl := true,
          maximumNumberOfTermsPerExpression := 10,
          spillLargeTermsWithNamehints := true,
          wireSpillingNamehintTermLimit := 5 }
        { uses := [], size := 5, namehint := some "_t" } = true
    ∧ shouldSpillWire_claimC7
        { disallowLocalVariables := false,
          disallowExpressionInliningInPorts := false,
          allowExprInEventControl := true,
          maximumNumberOfTermsPerExpression := 10,
          spillLargeTermsWithNamehints := true,
          wireSpillingNamehintTermLimit := 5 }
        { uses := [], size := 5, namehint := some "_t" } = false := by
  exact ⟨rfl, rfl, rfl, rfl⟩

/-- C7 amended: the code's worth-spilling predicate agrees everywhere with
the claim's description once (a) the bitcast-level "already a temporary"
check is limited to output/continuous/procedural-Connection users (no
Instance), and (b) the reserved-prefix cost test is "reaches or exceeds"
the `wireSpillingNamehintTermLimit` threshold rather than strictly
exceeds. -/
theorem C7_spill_predicate_amended (opts : LoweringOptions) (op : POp) :
    shouldSpillWireBasedOnState opts op = shouldSpillWire_amendedC7 opts op := by
  unfold shouldSpillWireBasedOnState shouldSpillWire_amendedC7
  by_cases h0 : (op.numResults == 0 || op.resultIsInOut || op.isReadInOut
      || op.isConstant) = true
  · rw [if_pos h0, if_pos h0]
  · rw [if_neg h0, if_neg h0]
    cases hu : op.uses with
    | nil => rfl
    | cons u rest =>
      cases rest with
      | cons u2 rest2 => rfl
      | nil =>
        cases u with
        | outputUse => rfl
        | assignUse t s => rfl
        | bpassignUse d => rfl
        | instanceUse => rfl
        | otherUse => rfl
        | bitcastUse bus =>
          match bus with
          | [] => rfl
          | [.outputUse] => rfl
          | [.assignUse t s] => rfl
          | [.bpassignUse d] => rfl
          | [.instanceUse] => rfl
          | [.bitcastUse bus2] => rfl
          | [.otherUse] => rfl
          | x :: y :: ys => cases x <;> rfl

theorem hoistBlockers_fst :
    ∀ ops : List HOperand, (hoistBlockers ops).1 = ops.any isProcDef := by
  intro ops
  induction ops with
  | nil => rfl
  | cons o rest ih =>
    cases o <;> simp [hoistBlockers, isProcDef, List.any_cons, ih]

theorem hoistBlockers_snd :
    ∀ ops : List HOperand, (hoistBlockers ops).2 = firstProcSameBlock ops := by
  intro ops
  induction ops with
  | nil => rfl
  | cons o rest ih =>
    cases o <;> simp [hoistBlockers, firstProcSameBlock, ih]

/-- C5 counterexample: a non-always-inline expression two procedural
levels deep, with one operand defined in a procedural region in the same
block, is not moved at all (the rewrite returns false), while the claim
requires it to move out exactly one region level. -/
theorem C5_counterexample :
    (hoistNonSideEffectExpr
        { alwaysInline := false, depth := 2,
          operands := [.procDef true] }).1 = false
    ∧ (hoistNonSideEffectExpr
        { alwaysInline := false, depth := 2,
          operands := [.procDef true] }).2.depth = 2 :=
  ⟨rfl, rfl⟩

/-- C5 amended: under `disallowLocalVariables`, for a non-side-effecting,
non-always-inline expression in a procedural region: if every operand's
definition already dominates the nearest enclosing non-procedural region,
the node moves there in one step; otherwise, if the first operand defined
in a procedural region is defined in the same block as the node, the node
is not moved at all; otherwise it moves out exactly one region level. -/
theorem C5_hoist_amended (op : POp) (hAI : op.alwaysInline = false)
    (_hdepth : 1 ≤ op.depth) :
    (op.operands.any isProcDef = false →
      hoistNonSideEffectExpr op = (true, { op with depth := 0 }))
    ∧ (op.operands.any isProcDef = true →
        firstProcSameBlock op.operands = true →
      hoistNonSideEffectExpr op = (false, op))
    ∧ (op.operands.any isProcDef = true →
        firstProcSameBlock op.operands = false →
      hoistNonSideEffectExpr op = (true, { op with depth := op.depth - 1 })) := by
  unfold hoistNonSideEffectExpr
  rw [hAI]
  simp only [Bool.false_and, Bool.false_eq_true, if_false]
  refine ⟨?_, ?_, ?_⟩
  · intro hany
    rw [if_neg (by rw [hoistBlockers_fst, hany]; exact Bool.false_ne_true)]
  · intro hany hsb
    rw [if_pos (by rw [hoistBlockers_fst, hany]),
        if_pos (by rw [hoistBlockers_snd, hsb])]
  · intro hany hsb
    rw [if_pos (by rw [hoistBlockers_fst, hany]),
        if_neg (by rw [hoistBlockers_snd, hsb]; exact Bool.false_ne_true)]

/-- Witness for the amended C5 at concrete inputs covering the
hoist-in-one-step case and the hoist-one-level case. -/
theorem C5_hoist_amended_witness :
    (([HOperand.graphDef].any isProcDef = false)
      ∧ hoistNonSideEffectExpr
          { alwaysInline := false, depth := 2, operands := [.graphDef] }
        = (true, { alwaysInline := false, depth := 0,
                   operands := [.graphDef] }))
    ∧ (([HOperand.procDef false].any isProcDef = true)
      ∧ hoistNonSideEffectExpr
          { alwaysInline := false, depth := 2, operands := [.procDef false] }
        = (true, { alwaysInline := false, depth := 1,
                   operands := [.procDef false] })) :=
  ⟨⟨rfl,
    (C5_hoist_amended
      { alwaysInline := false, depth := 2, operands := [.graphDef] }
      rfl (by decide)).1 rfl⟩,
   ⟨rfl,
    (C5_hoist_amended
      { alwaysInline := false, depth := 2, operands := [.procDef false] }
      rfl (by decide)).2.2 rfl rfl⟩⟩

theorem phase2_isNone (opts : LoweringOptions) :
    ∀ b : MBlock, (phase2 opts b).isNone = topHasUnknown b
  | .bnil => by rfl
  | .bcons (.mk p rs) rest => by
    have ih := phase2_isNone opts rest
    by_cases hd : p.dialect = .unknown
    · simp [phase2, topHasUnknown, hd]
    · simp only [phase2, topHasUnknown, if_neg hd]
      cases hrest : phase2 opts rest with
      | none => rw [hrest] at ih; simp at ih; simp [ih, hd]
      | some rest2 => rw [hrest] at ih; simp at ih; simp [ih, hd]

theorem phase1_topHasUnknown (opts : LoweringOptions) :
    ∀ (b b1 : MBlock), legalizePhase1 opts b = some b1 →
      topHasUnknown b1 = topHasUnknown b
  | .bnil => by
    intro b1 h
    simp only [legalizePhase1] at h
    cases h
    rfl
  | .bcons (.mk p rs) rest => by
    intro b1 h
    have ih := phase1_topHasUnknown opts rest
    simp only [legalizePhase1] at h
    cases hr : legalizeRegions opts rs with
    | none => rw [hr] at h; cases h
    | some rs2 =>
      cases hp : legalizePhase1 opts rest with
      | none => rw [hr, hp] at h; cases h
      | some rest2 =>
        rw [hr, hp] at h
        cases h
        simp [topHasUnknown, ih rest2 hp]

theorem blockHasUnknown_eq :
    ∀ b : MBlock,
      blockHasUnknown b = (topHasUnknown b || blockNestedUnknown b)
  | .bnil => by rfl
  | .bcons (.mk p rs) rest => by
    have ih := blockHasUnknown_eq rest
    simp only [blockHasUnknown, opHasUnknown, topHasUnknown,
      blockNestedUnknown, ih]
    cases p.dialect == .unknown <;> cases regionsHaveUnknown rs
      <;> cases topHasUnknown rest <;> cases blockNestedUnknown rest <;> rfl

mutual
theorem phase1_isNone (opts : LoweringOptions) :
    ∀ b : MBlock, (legalizePhase1 opts b).isNone = blockNestedUnknown b
  | .bnil => by rfl
  | .bcons (.mk p rs) rest => by
    have h1 := regions_isNone opts rs
    have h2 := phase1_isNone opts rest
    simp only [legalizePhase1, blockNestedUnknown]
    cases hr : legalizeRegions opts rs with
    | none =>
      rw [hr] at h1; simp at h1
      simp [h1]
    | some rs2 =>
      rw [hr] at h1; simp at h1
      cases hp : legalizePhase1 opts rest with
      | none =>
        rw [hp] at h2; simp at h2
        simp [h1, h2]
      | some rest2 =>
        rw [hp] at h2; simp at h2
        simp [h1, h2]
theorem regions_isNone (opts : LoweringOptions) :
    ∀ rs : MRegions, (legalizeRegions opts rs).isNone = regionsHaveUnknown rs
  | .rnil => by rfl
  | .rcons b bs => by
    have h1 := phase1_isNone opts b
    have h2 := regions_isNone opts bs
    simp only [legalizeRegions, regionsHaveUnknown]
    cases hp : legalizePhase1 opts b with
    | none =>
      rw [hp] at h1; simp at h1
      have hb : blockHasUnknown b = true := by
        rw [blockHasUnknown_eq, h1]
        simp
      simp [hb]
    | some b1 =>
      rw [hp] at h1; simp at h1
      have htop : topHasUnknown b1 = topHasUnknown b :=
        phase1_topHasUnknown opts b b1 hp
      have hq := phase2_isNone opts b1
      rw [htop] at hq
      cases hq2 : phase2 opts b1 with
      | none =>
        rw [hq2] at hq; simp at hq
        have hb : blockHasUnknown b = true := by
          rw [blockHasUnknown_eq, hq]
          simp
        simp [hb, hq2]
      | some b2 =>
        rw [hq2] at hq; simp at hq
        have hb : blockHasUnknown b = false := by
          rw [blockHasUnknown_eq, hq, h1]
          rfl
        cases hbs : legalizeRegions opts bs with
        | none =>
          rw [hbs] at h2; simp at h2
          simp [hb, h2, hq2]
        | some bs2 =>
          rw [hbs] at h2; simp at h2
          simp [hb, h2, hq2]
end

/-- C4: legalization of a block fails exactly when some operation in it
(at any nesting depth) belongs to an unrecognized dialect; on every block
free of such operations the driver's deterministic rewrites run to
completion and the pass returns success. -/
theorem C4_failure_iff_unknown_dialect (opts : LoweringOptions)
    (b : MBlock) :
    (legalizeHWModule opts b).isNone = blockHasUnknown b := by
  unfold legalizeHWModule
  have h1 := phase1_isNone opts b
  cases hp : legalizePhase1 opts b with
  | none =>
    rw [hp] at h1; simp at h1
    rw [blockHasUnknown_eq b, h1]
    simp
  | some b1 =>
    rw [hp] at h1; simp at h1
    have hq := phase2_isNone opts b1
    rw [phase1_topHasUnknown opts b b1 hp] at hq
    rw [hq, blockHasUnknown_eq b, h1]
    simp

theorem rewriteSE_snd_good (uses : List MUse) :
    goodSideEffectForm ((rewriteSideEffectingExpr uses).2) = true := by
  match uses with
  | [] => rfl
  | [u] =>
    cases u with
    | assignUse t s => rfl
    | bpassignUse dk => cases dk <;> rfl
    | outputUse => rfl
    | instanceUse => rfl
    | bitcastUse bus => rfl
    | otherUse => rfl
  | u1 :: u2 :: rest =>
    cases u1 with
    | assignUse t s => rfl
    | bpassignUse dk => cases dk <;> rfl
    | outputUse => rfl
    | instanceUse => rfl
    | bitcastUse bus => rfl
    | otherUse => rfl

theorem rewriteSE_false_good (uses : List MUse)
    (h : (rewriteSideEffectingExpr uses).1 = false) :
    goodSideEffectForm uses = true := by
  match uses with
  | [] => exact Bool.noConfusion h
  | [u] =>
    cases u with
    | assignUse t s => exact Bool.noConfusion h
    | bpassignUse dk =>
      cases dk with
      | reg => rfl
      | logic => rfl
      | otherDecl => exact Bool.noConfusion h
    | outputUse => exact Bool.noConfusion h
    | instanceUse => exact Bool.noConfusion h
    | bitcastUse bus => exact Bool.noConfusion h
    | otherUse => exact Bool.noConfusion h
  | u1 :: u2 :: rest =>
    cases u1 with
    | assignUse t s => exact Bool.noConfusion h
    | bpassignUse dk => cases dk <;> exact Bool.noConfusion h
    | outputUse => exact Bool.noConfusion h
    | instanceUse => exact Bool.noConfusion h
    | bitcastUse bus => exact Bool.noConfusion h
    | otherUse => exact Bool.noConfusion h

theorem goodForm_shape (uses : List MUse)
    (h : goodSideEffectForm uses = true) :
    uses = [.bpassignUse .reg] ∨ uses = [.bpassignUse .logic] := by
  match uses with
  | [] => exact Bool.noConfusion h
  | [u] =>
    cases u with
    | assignUse t s => exact Bool.noConfusion h
    | bpassignUse dk =>
      cases dk with
      | reg => exact Or.inl rfl
      | logic => exact Or.inr rfl
      | otherDecl => exact Bool.noConfusion h
    | outputUse => exact Bool.noConfusion h
    | instanceUse => exact Bool.noConfusion h
    | bitcastUse bus => exact Bool.noConfusion h
    | otherUse => exact Bool.noConfusion h
  | u1 :: u2 :: rest =>
    cases u1 with
    | assignUse t s => exact Bool.noConfusion h
    | bpassignUse dk => cases dk <;> exact Bool.noConfusion h
    | outputUse => exact Bool.noConfusion h
    | instanceUse => exact Bool.noConfusion h
    | bitcastUse bus => exact Bool.noConfusion h
    | otherUse => exact Bool.noConfusion h

theorem hoist_preserves (p : POp) :
    (hoistNonSideEffectExpr p).2.uses = p.uses
    ∧ (hoistNonSideEffectExpr p).2.isVerilogExpr = p.isVerilogExpr
    ∧ (hoistNonSideEffectExpr p).2.memEffectFree = p.memEffectFree
    ∧ (hoistNonSideEffectExpr p).2.isAlwaysLike = p.isAlwaysLike
    ∧ (hoistNonSideEffectExpr p).2.erased = p.erased
    ∧ (hoistNonSideEffectExpr p).2.depth ≤ p.depth := by
  unfold hoistNonSideEffectExpr
  split_ifs <;> refine ⟨rfl, rfl, rfl, rfl, rfl, ?_⟩ <;> simp

theorem checkC2_of_good (p : POp) (h : goodSideEffectForm p.uses = true) :
    checkC2 p = true := by
  simp [checkC2, h]

theorem checkC2_depth_le (p : POp) (d : Nat) (hd : d ≤ p.depth)
    (h : checkC2 p = true) : checkC2 { p with depth := d } = true := by
  simp only [checkC2] at h ⊢
  cases hA : p.isVerilogExpr <;> cases hB : p.memEffectFree <;>
    cases hC : p.isAlwaysLike <;> cases hE : p.erased <;>
    cases hG : goodSideEffectForm p.uses <;>
    simp_all

theorem checkC2_late_pres (p : POp) (h : checkC2 p = true) :
    checkC2 (processLateRewrites p) = true := by
  unfold processLateRewrites
  split_ifs with h1 h2 h3 h4
  · simp [checkC2]
  · simp [checkC2]
  · simp [checkC2]
  · -- speculative reuse in a graph region: the depth is unchanged and
    -- below 1, so the invariant's guard stays vacuous
    have hd : ¬ (1 ≤ p.depth) := by
      rcases Bool.and_eq_true_iff.mp h4 with ⟨hnd, _⟩
      simpa using hnd
    simp [checkC2, hd]
  · exact h

theorem checkC2_hoist (p : POp) (h : checkC2 p = true) :
    checkC2 (hoistNonSideEffectExpr p).2 = true := by
  unfold hoistNonSideEffectExpr
  split_ifs
  · exact h
  · exact h
  · exact checkC2_depth_le p (p.depth - 1) (Nat.sub_le _ _) h
  · exact checkC2_depth_le p 0 (Nat.zero_le _) h

theorem checkC2_spill_pres (opts : LoweringOptions) (p : POp)
    (h : checkC2 p = true) : checkC2 (processSpillStep opts p) = true := by
  unfold processSpillStep
  split_ifs with h1 h2 h3 h4 h5 h6
  · -- hoisted all the way out and spilled to a wire: now in a graph region
    have hd0 : (hoistNonSideEffectExpr p).2.depth = 0 := by
      simpa using h5
    simp [checkC2, hd0]
  · -- hoisted some levels: uses and flags unchanged, the invariant holds
    exact checkC2_hoist p h
  · exact checkC2_late_pres p h
  · -- spilled to an automatic-logic declaration: the single use is a
    -- blocking assign into the logic declaration
    exact checkC2_late_pres _ (checkC2_of_good _ (by rfl))
  · -- graph region (depth < 1): the invariant's guard is vacuous
    exact checkC2_late_pres _ (by
      have hd : ¬ (1 ≤ p.depth) := by simpa using h2
      simp [checkC2, hd])
  · exact checkC2_late_pres _ (by
      have hd : ¬ (1 ≤ p.depth) := by simpa using h2
      simp [checkC2, hd])
  · exact checkC2_late_pres p h

theorem lowerAlwaysInlineUses_good (uses : List MUse)
    (h : goodSideEffectForm uses = true) :
    lowerAlwaysInlineUses uses = uses := by
  rcases goodForm_shape uses h with h1 | h1 <;> rw [h1] <;> rfl

theorem checkC2_alwaysInline_pres (opts : LoweringOptions) (p : POp)
    (h : checkC2 p = true) :
    checkC2 (processAlwaysInlineStep opts p) = true := by
  unfold processAlwaysInlineStep
  split_ifs with h1 h2
  · simp [checkC2]
  · -- duplication keeps exactly one use; if the invariant's guard is
    -- live, the single blocking-assign use is preserved
    simp only [checkC2] at h ⊢
    rcases Bool.or_eq_true_iff.mp h with hg | hg
    · exact Bool.or_eq_true_iff.mpr (Or.inl hg)
    · rw [lowerAlwaysInlineUses_good p.uses hg]
      simp [hg]
  · exact checkC2_spill_pres opts p h

theorem checkC2_hoistStep (opts : LoweringOptions) (p : POp)
    (h : checkC2 p = true) :
    checkC2 (processHoistStep opts p) = true := by
  unfold processHoistStep
  split_ifs
  · exact checkC2_hoist p h
  · exact checkC2_alwaysInline_pres opts p h

theorem checkC2_proceduralStep (opts : LoweringOptions) (p : POp)
    (hdl : opts.disallowLocalVariables = true) :
    checkC2 (processProceduralExprStep opts p) = true := by
  unfold processProceduralExprStep
  split_ifs with h1 h2 h3
  · -- side-effecting expression anchored behind a register
    exact checkC2_of_good _ (rewriteSE_snd_good p.uses)
  · -- already anchored: its use list is in good form
    exact checkC2_hoistStep opts p
      (checkC2_of_good p (rewriteSE_false_good p.uses (by simpa using h3)))
  · -- memory-effect-free expression: the invariant's guard is vacuous
    exact checkC2_hoistStep opts p (by
      have hm : p.memEffectFree = true := by simpa using h2
      simp [checkC2, hm])
  · -- guard failed: with local variables disallowed this means the
    -- operation is no Verilog expression or sits in a graph region
    refine checkC2_alwaysInline_pres opts p ?_
    rw [hdl] at h1
    simp only [Bool.true_and, Bool.and_eq_true, decide_eq_true_eq,
      Classical.not_and_iff_or_not_not] at h1
    rcases h1 with h1 | h1
    · simp [checkC2, h1]
    · simp [checkC2, h1]

theorem checkC2_eventStep (opts : LoweringOptions) (p : POp)
    (hdl : opts.disallowLocalVariables = true) :
    checkC2 (processEventControlStep opts p) = true := by
  unfold processEventControlStep
  split_ifs with h1
  · have ha : p.isAlwaysLike = true := (Bool.and_eq_true_iff.mp h1).2
    simp [checkC2, ha]
  · exact checkC2_proceduralStep opts p hdl

/-- Under `disallowLocalVariables`, the per-operation pipeline establishes
claim C2's invariant on every operation state it produces. -/
theorem processOpFull_checkC2 (opts : LoweringOptions) (p0 : POp)
    (hdl : opts.disallowLocalVariables = true) :
    checkC2 (processOpFull opts p0) = true := by
  unfold processOpFull
  split_ifs with h1
  · exact checkC2_eventStep opts _ hdl
  · exact checkC2_eventStep opts p0 hdl

theorem phase2_allOps (opts : LoweringOptions)
    (hdl : opts.disallowLocalVariables = true) :
    ∀ (b b2 : MBlock), phase2 opts b = some b2 →
      blockNestedAll checkC2 b = true → allOpsBlock checkC2 b2 = true
  | .bnil, b2, h, _ => by
    simp only [phase2] at h
    cases h
    rfl
  | .bcons (.mk p rs) rest, b2, h, hn => by
    simp only [phase2] at h
    by_cases hd : p.dialect = .unknown
    · rw [if_pos hd] at h; cases h
    · rw [if_neg hd] at h
      cases hrest : phase2 opts rest with
      | none => rw [hrest] at h; cases h
      | some rest2 =>
        rw [hrest] at h
        cases h
        simp only [blockNestedAll, Bool.and_eq_true] at hn
        have ih := phase2_allOps opts hdl rest rest2 hrest hn.2
        simp [allOpsBlock, allOpsOp,
          processOpFull_checkC2 opts p hdl, hn.1, ih]

mutual
theorem phase1_nestedAll (opts : LoweringOptions)
    (hdl : opts.disallowLocalVariables = true) :
    ∀ (b b1 : MBlock), legalizePhase1 opts b = some b1 →
      blockNestedAll checkC2 b1 = true
  | .bnil, b1, h => by
    simp only [legalizePhase1] at h
    cases h
    rfl
  | .bcons (.mk p rs) rest, b1, h => by
    simp only [legalizePhase1] at h
    cases hr : legalizeRegions opts rs with
    | none => rw [hr] at h; cases h
    | some rs2 =>
      cases hp : legalizePhase1 opts rest with
      | none => rw [hr, hp] at h; cases h
      | some rest2 =>
        rw [hr, hp] at h
        cases h
        have h1 := regions_allOps opts hdl rs rs2 hr
        have h2 := phase1_nestedAll opts hdl rest rest2 hp
        simp [blockNestedAll, h1, h2]
theorem regions_allOps (opts : LoweringOptions)
    (hdl : opts.disallowLocalVariables = true) :
    ∀ (rs rs2 : MRegions), legalizeRegions opts rs = some rs2 →
      allOpsRegions checkC2 rs2 = true
  | .rnil, rs2, h => by
    simp only [legalizeRegions] at h
    cases h
    rfl
  | .rcons b bs, rs2, h => by
    simp only [legalizeRegions] at h
    cases hp : legalizePhase1 opts b with
    | none => rw [hp] at h; cases h
    | some b1 =>
      rw [hp] at h
      have hm : (match phase2 opts b1, legalizeRegions opts bs with
          | some b2, some bs2 => some (MRegions.rcons b2 bs2)
          | _, _ => none) = some rs2 := h
      cases hq : phase2 opts b1 with
      | none => rw [hq] at hm; cases hm
      | some b2 =>
        cases hbs : legalizeRegions opts bs with
        | none => rw [hq, hbs] at hm; cases hm
        | some bs2 =>
          rw [hq, hbs] at hm
          cases hm
          have hn := phase1_nestedAll opts hdl b b1 hp
          have hall := phase2_allOps opts hdl b1 b2 hq hn
          have hrest := regions_allOps opts hdl bs bs2 hbs
          simp [allOpsRegions, hall, hrest]
end

/-- C2 amended: when `disallowLocalVariables` is set, after legalization
succeeds on a module block, every operation state of the result satisfies
the single-use side-effect invariant: a side-effecting Verilog expression
(not an always-like operation) remaining unerased inside a procedural
region has exactly one use, and that use is a blocking (procedural)
Connection whose destination is a reg or automatic-logic Declaration. -/
theorem C2_side_effect_invariant (opts : LoweringOptions) (b b2 : MBlock)
    (hdl : opts.disallowLocalVariables = true)
    (h : legalizeHWModule opts b = some b2) :
    allOpsBlock checkC2 b2 = true := by
  unfold legalizeHWModule at h
  cases hp : legalizePhase1 opts b with
  | none => rw [hp] at h; cases h
  | some b1 =>
    rw [hp] at h
    exact phase2_allOps opts hdl b1 b2 h (phase1_nestedAll opts hdl b b1 hp)

/-- C2 counterexample: with `disallowLocalVariables` disabled and the
inlining oracle classifying the expression as inlineable, legalization
leaves a side-effecting Verilog expression with two plain uses untouched
inside a procedural region, violating the claim's unconditional
invariant. -/
theorem C2_counterexample :
    legalizeHWModule { disallowLocalVariables := false } sideEffBlockBad
      = some sideEffBlockBad
    ∧ allOpsBlock checkC2 sideEffBlockBad = false :=
  ⟨rfl, rfl⟩

/-- Witness for the amended C2 at a concrete module block. -/
theorem C2_side_effect_invariant_witness :
    LoweringOptions.disallowLocalVariables { disallowLocalVariables := true }
        = true
    ∧ legalizeHWModule { disallowLocalVariables := true } sideEffBlockW
        = some sideEffBlockWOut
    ∧ allOpsBlock checkC2 sideEffBlockWOut = true :=
  ⟨rfl, rfl,
   C2_side_effect_invariant { disallowLocalVariables := true }
     sideEffBlockW sideEffBlockWOut rfl rfl⟩

theorem rewriteSE_fires (uses : List MUse)
    (h : goodSideEffectForm uses = false) :
    rewriteSideEffectingExpr uses = (true, [.bpassignUse .reg]) := by
  match uses with
  | [] => rfl
  | [u] =>
    cases u with
    | assignUse t s => rfl
    | bpassignUse dk =>
      cases dk with
      | reg => exact Bool.noConfusion h
      | logic => exact Bool.noConfusion h
      | otherDecl => rfl
    | outputUse => rfl
    | instanceUse => rfl
    | bitcastUse bus => rfl
    | otherUse => rfl
  | u1 :: u2 :: rest =>
    cases u1 with
    | assignUse t s => rfl
    | bpassignUse dk => cases dk <;> rfl
    | outputUse => rfl
    | instanceUse => rfl
    | bitcastUse bus => rfl
    | otherUse => rfl

/-- C3 amended: legalization is not idempotent. Under
`disallowLocalVariables`, a side-effecting Verilog expression in a
procedural region whose uses are not yet anchored is rewritten in place by
the first run (anchored behind a register via a single blocking assign,
`continue`), while a second run, finding it already anchored, falls
through to the hoist rewrite and moves it out of the procedural region —
so the second run's output differs structurally from the first run's. -/
theorem C3_not_idempotent (opts : LoweringOptions) (p : POp)
    (hdl : opts.disallowLocalVariables = true)
    (hve : p.isVerilogExpr = true) (hmem : p.memEffectFree = false)
    (halw : p.isAlwaysLike = false) (hai : p.alwaysInline = false)
    (hlog : p.isLogic = false) (hdepth : 1 ≤ p.depth)
    (hops : p.operands.any isProcDef = false)
    (hbad : goodSideEffectForm p.uses = false) :
    processOpFull opts p = { p with uses := [.bpassignUse .reg] }
    ∧ 1 ≤ (processOpFull opts p).depth
    ∧ (processOpFull opts (processOpFull opts p)).depth = 0 := by
  have hstep1 : processOpFull opts p = { p with uses := [.bpassignUse .reg] } := by
    unfold processOpFull
    rw [if_neg (by simp [hlog])]
    unfold processEventControlStep
    rw [if_neg (by simp [halw])]
    unfold processProceduralExprStep
    rw [if_pos (by simp [hdl, hve]; omega)]
    rw [if_pos (by simp [hmem])]
    rw [if_pos (by rw [rewriteSE_fires p.uses hbad])]
    rw [rewriteSE_fires p.uses hbad]
  refine ⟨hstep1, by rw [hstep1]; exact hdepth, ?_⟩
  rw [hstep1]
  unfold processOpFull
  rw [if_neg (by simp [hlog])]
  unfold processEventControlStep
  rw [if_neg (by simp [halw])]
  unfold processProceduralExprStep
  rw [if_pos (by simp [hdl, hve]; omega)]
  rw [if_pos (by simp [hmem])]
  rw [if_neg (by
    show ¬ (rewriteSideEffectingExpr [.bpassignUse .reg]).1 = true
    decide)]
  unfold processHoistStep
  rw [if_pos (by
    unfold hoistNonSideEffectExpr
    rw [if_neg (by simp [hai])]
    rw [if_neg (by rw [hoistBlockers_fst]; simp [hops])])]
  unfold hoistNonSideEffectExpr
  rw [if_neg (by simp [hai])]
  rw [if_neg (by rw [hoistBlockers_fst]; simp [hops])]

/-- C3 counterexample: running legalization a second time on the output of
the first run does not reproduce that output — the first run anchors the
side-effecting expression in place (procedural depth still 1), the second
run hoists it out of the procedural region (depth 0). -/
theorem C3_counterexample :
    legalizeHWModule { disallowLocalVariables := true } seBlockIdem
      = some seBlockIdemOnce
    ∧ legalizeHWModule { disallowLocalVariables := true } seBlockIdemOnce
      = some seBlockIdemTwice
    ∧ legalizeHWModule { disallowLocalVariables := true } seBlockIdemOnce
      ≠ some seBlockIdemOnce := by
  refine ⟨rfl, rfl, ?_⟩
  intro hcontra
  have hmap := congrArg (Option.map headDepth) hcontra
  exact absurd hmap (by decide)

/-- Witness for the amended C3 at the concrete state of `seOpIdem`. -/
theorem C3_not_idempotent_witness :
    (LoweringOptions.disallowLocalVariables { disallowLocalVariables := true }
        = true
      ∧ seOpIdem.isVerilogExpr = true ∧ seOpIdem.memEffectFree = false
      ∧ seOpIdem.isAlwaysLike = false ∧ seOpIdem.alwaysInline = false
      ∧ seOpIdem.isLogic = false ∧ 1 ≤ seOpIdem.depth
      ∧ seOpIdem.operands.any isProcDef = false
      ∧ goodSideEffectForm seOpIdem.uses = false)
    ∧ (processOpFull { disallowLocalVariables := true } seOpIdem
        = { seOpIdem with uses := [.bpassignUse .reg] }
      ∧ 1 ≤ (processOpFull { disallowLocalVariables := true } seOpIdem).depth
      ∧ (processOpFull { disallowLocalVariables := true }
          (processOpFull { disallowLocalVariables := true } seOpIdem)).depth
        = 0) :=
  ⟨⟨rfl, rfl, rfl, rfl, rfl, rfl, by decide, rfl, rfl⟩,
   C3_not_idempotent { disallowLocalVariables := true } seOpIdem
     rfl rfl rfl rfl rfl rfl (by decide) rfl rfl⟩
